import Mathlib

/-!
# Verification of the permutohedral lattice filter engine

A shallow embedding, in exact arithmetic, of the permutohedral lattice
filter of `PermutohedralLatticeGPU.cuh`, together with theorems settling
the specification claims about it.

Modelling conventions:
* `T` (float/double) becomes `ℚ`: the claims under scrutiny are stated
  "exactly under exact arithmetic", so all real arithmetic is rational.
* machine integers become `ℤ`/`ℕ`; the `unsigned int` accumulator of the
  hash function wraps explicitly modulo `2^32`; C integer division is
  `Int.tdiv` (truncation toward zero).
* the CUDA kernels are modelled in their race-free sequential execution
  order (one logical worker after another), which is the reference
  semantics the specification appeals to; atomics degenerate to plain
  reads and writes.
* the scale factor `1/sqrt((i+1)(i+2)) * (pd+1)*sqrt(2/3)` is irrational,
  so the engine is modelled for an arbitrary rational scale vector; every
  theorem below holds for all scale vectors, hence at the (approximated)
  one the concrete program uses.
* unbounded probe loops (`while (1)`) are modelled with explicit fuel;
  `none` means the loop has not resolved within the given number of
  probes.
-/

namespace PermLat


/-! ## The lattice embedder (`createLattice`), per sample

The kernel works on one sample's position vector.  `pos` and `sc` are the
position and scale-factor buffers (index `i < pd`); only indices below
`pd` are ever read. -/

/-- The scaled coordinate `cf = position[i-1] * scaleFactor[i-1]` read at
loop index `i` (the elevation loop runs `i = pd, pd-1, ..., 1`). -/
def cf (pos sc : ℕ → ℚ) (i : ℕ) : ℚ := pos (i - 1) * sc (i - 1)

/-- The running sum `sm` of the elevation loop after `k` iterations
(iterations run the loop variable through `pd, pd-1, ..., pd-k+1`). -/
def smD (pos sc : ℕ → ℚ) (pd : ℕ) : ℕ → ℚ
  | 0 => 0
  | k + 1 => smD pos sc pd k + cf pos sc (pd - k)

/-- `elevated[i]` as computed by `createLattice`:
`elevated[i] = sm - i*cf` at loop index `i`, and `elevated[0] = sm` after
the loop. -/
def elev (pos sc : ℕ → ℚ) (pd : ℕ) (i : ℕ) : ℚ :=
  if i = 0 then smD pos sc pd pd
  else smD pos sc pd (pd - i) - (i : ℚ) * cf pos sc i

/-- One coordinate of the rounding step: round `e` to a multiple of
`s = pd+1`, choosing `up = ceil(e/s)*s` exactly when it is strictly
closer than `down = floor(e/s)*s`. -/
def roundMult (s : ℕ) (e : ℚ) : ℤ :=
  let v : ℚ := e * (1 / (s : ℚ))
  let up : ℤ := ⌈v⌉ * (s : ℤ)
  let down : ℤ := ⌊v⌋ * (s : ℤ)
  if (up : ℚ) - e < e - (down : ℚ) then up else down

/-- `rem0[i]` before the sum correction. -/
def rem0P (pd : ℕ) (f : ℕ → ℚ) (i : ℕ) : ℤ := roundMult (pd + 1) (f i)

/-- The accumulated sum of the chosen remainders. -/
def sumRem (pd : ℕ) (f : ℕ → ℚ) : ℤ := ∑ i in Finset.range (pd + 1), rem0P pd f i

/-- `sum /= pd + 1` — C integer division (truncation toward zero). -/
def sumV (pd : ℕ) (f : ℕ → ℚ) : ℤ := Int.tdiv (sumRem pd f) ((pd : ℤ) + 1)

/-- `rank[i]` before the sum correction: the number of indices `j` with
`elevated[i]-rem0[i] < elevated[j]-rem0[j]`, or equal residual and
`i > j`. -/
def rankP (pd : ℕ) (f : ℕ → ℚ) (i : ℕ) : ℕ :=
  ((Finset.range (pd + 1)).filter (fun j =>
      f i - (rem0P pd f i : ℚ) < f j - (rem0P pd f j : ℚ) ∨
      (f i - (rem0P pd f i : ℚ) = f j - (rem0P pd f j : ℚ) ∧ j < i))).card

/-- `rem0[i]` after the sum correction. -/
def remC (pd : ℕ) (f : ℕ → ℚ) (i : ℕ) : ℤ :=
  if 0 < sumV pd f then
    (if (pd : ℤ) + 1 - sumV pd f ≤ (rankP pd f i : ℤ) then
      rem0P pd f i - ((pd : ℤ) + 1) else rem0P pd f i)
  else if sumV pd f < 0 then
    (if (rankP pd f i : ℤ) < -sumV pd f then
      rem0P pd f i + ((pd : ℤ) + 1) else rem0P pd f i)
  else rem0P pd f i

/-- `rank[i]` after the sum correction. -/
def rankC (pd : ℕ) (f : ℕ → ℚ) (i : ℕ) : ℤ :=
  if 0 < sumV pd f then
    (if (pd : ℤ) + 1 - sumV pd f ≤ (rankP pd f i : ℤ) then
      (rankP pd f i : ℤ) + sumV pd f - ((pd : ℤ) + 1)
    else (rankP pd f i : ℤ) + sumV pd f)
  else if sumV pd f < 0 then
    (if (rankP pd f i : ℤ) < -sumV pd f then
      (rankP pd f i : ℤ) + ((pd : ℤ) + 1) + sumV pd f
    else (rankP pd f i : ℤ) + sumV pd f)
  else (rankP pd f i : ℤ)

/-- `delta = (elevated[i] - rem0[i]) * (1/(pd+1))` (with the corrected
`rem0`). -/
def delta (pd : ℕ) (f : ℕ → ℚ) (i : ℕ) : ℚ :=
  (f i - (remC pd f i : ℚ)) * (1 / ((pd : ℚ) + 1))

/-- The barycentric accumulator array after the first `k` coordinates
have been folded in:
`barycentric[pd - rank[i]] += delta; barycentric[pd + 1 - rank[i]] -= delta`. -/
def baryAux (pd : ℕ) (f : ℕ → ℚ) : ℕ → ℤ → ℚ
  | 0, _ => 0
  | k + 1, idx =>
    baryAux pd f k idx
      + (if idx = (pd : ℤ) - rankC pd f k then delta pd f k else 0)
      - (if idx = (pd : ℤ) + 1 - rankC pd f k then delta pd f k else 0)

/-- The final barycentric weight of simplex corner `r`
(after `barycentric[0] += 1.0 + barycentric[pd+1]`). -/
def bary (pd : ℕ) (f : ℕ → ℚ) (r : ℕ) : ℚ :=
  if r = 0 then
    baryAux pd f (pd + 1) 0 + 1 + baryAux pd f (pd + 1) ((pd : ℤ) + 1)
  else baryAux pd f (pd + 1) (r : ℤ)

/-- The lattice key of simplex corner `r` (`remainder` in the source):
`key[i] = rem0[i] + remainder`, minus `pd+1` where `rank[i] > pd - remainder`. -/
def latKey (pd : ℕ) (f : ℕ → ℚ) (r : ℕ) : List ℤ :=
  (List.range pd).map (fun i =>
    remC pd f i + (r : ℤ) - (if (pd : ℤ) - (r : ℤ) < rankC pd f i then (pd : ℤ) + 1 else 0))

/-! ## The hash function of `HashTableGPU` -/

/-- The polynomial hash `k += key[i]; k = k * 2531011`, accumulated in an
`unsigned int` (wraparound modulo `2^32`). -/
def hashK (key : List ℤ) : ℕ :=
  key.foldl (fun k ki => ((((k : ℕ) : ℤ) + ki) * 2531011 % 2 ^ 32).toNat) 0

/-- The hash iteration the specification describes instead:
`k = k*2531011 + key[i]` (multiply first, then add). -/
def hashSpecK (key : List ℤ) : ℕ :=
  key.foldl (fun k ki => ((((k : ℕ) : ℤ) * 2531011 + ki) % 2 ^ 32).toNat) 0

/-! ## The hash table (`HashTableGPU`), race-free sequential semantics -/

/-- Sequential state of a `HashTableGPU<T, pd, vd>`: `entries` has
`2*capacity` cells (`-1` empty, `-2` transiently locked, otherwise the
owning slot), `keys` and `values` have `capacity` rows. -/
structure HashTable where
  capacity : ℕ
  entries : List ℤ
  keys : List (List ℤ)
  values : List (List ℚ)
deriving DecidableEq

/-- `modHash`: reduce a hash value modulo `2*capacity`. -/
def modHash (c : ℕ) (n : ℕ) : ℕ := n % (2 * c)

/-- `h++; if (h == capacity*2) h = 0;` — advance the probe index. -/
def nextIdx (c : ℕ) (h : ℕ) : ℕ := if h + 1 = 2 * c then 0 else h + 1

/-- The key stored at slot `s` (`keys + s*pd`). -/
def keyAt (t : HashTable) (s : ℤ) : List ℤ := t.keys.getD s.toNat []

/-- The probing loop of `HashTableGPU::insert` in its race-free sequential
semantics (the `atomicCAS` claim of an empty cell always succeeds), with
explicit fuel: `none` means the unbounded loop has not resolved within
`fuel` probes.  On success, returns the probe index `h` that `insert`
returns, together with the updated table.  `claimUpd` is the table update
performed when the empty cell `p` is claimed for slot `slot`. -/
def claimUpd (t : HashTable) (p : ℕ) (slot : ℕ) (key : List ℤ) : HashTable :=
  { t with entries := t.entries.set p ((slot : ℤ)), keys := t.keys.set slot key }

def insertAux (key : List ℤ) (slot : ℕ) : ℕ → HashTable → ℕ → Option (ℕ × HashTable)
  | 0, _, _ => none
  | fuel + 1, t, h =>
    if t.entries.getD h 0 = -1 then
      some (h, claimUpd t h slot key)
    else if t.entries.getD h 0 = -2 then
      insertAux key slot fuel t (nextIdx t.capacity h)
    else if keyAt t (t.entries.getD h 0) = key then some (h, t)
    else insertAux key slot fuel t (nextIdx t.capacity h)

/-- `HashTableGPU::insert`, probing from `modHash(hash(key))` with fuel
`2*capacity` (one full sweep of the probe space). -/
def insertT (t : HashTable) (key : List ℤ) (slot : ℕ) : Option (ℕ × HashTable) :=
  insertAux key slot (2 * t.capacity) t (modHash t.capacity (hashK key))

/-- The probing loop of `HashTableGPU::retrieve`, with explicit fuel.
Returns the contents `*e` of the resolving entry: the owning slot on a
key match, `-1` (NOT_FOUND) when an empty cell is hit first. -/
def retrieveAux (t : HashTable) (key : List ℤ) : ℕ → ℕ → Option ℤ
  | 0, _ => none
  | fuel + 1, h =>
    if t.entries.getD h 0 = -1 then some (-1)
    else if keyAt t (t.entries.getD h 0) = key then some (t.entries.getD h 0)
    else retrieveAux t key fuel (nextIdx t.capacity h)

/-- `HashTableGPU::retrieve`. -/
def retrieveT (t : HashTable) (key : List ℤ) : Option ℤ :=
  retrieveAux t key (2 * t.capacity) (modHash t.capacity (hashK key))

/-! ## The filter pipeline (sequential semantics)

`MatEntry` is the per-(sample, corner) record `{index, weight}`.  After
`createLattice`, `index` holds the probe index returned by `insert`;
`splatCache` rewrites it to the owning slot `entries[index]`. -/

structure MatEntry where
  index : ℤ
  weight : ℚ
deriving DecidableEq

/-- The position vector of sample `idx` inside the flat positions buffer. -/
def posOf (positions : ℕ → ℚ) (pd idx : ℕ) : ℕ → ℚ :=
  fun i => positions (idx * pd + i)

/-- The lattice key inserted by row `m` (sample `m / (pd+1)`, corner
`m % (pd+1)`). -/
def rowKey (pd : ℕ) (positions sc : ℕ → ℚ) (m : ℕ) : List ℤ :=
  latKey pd (elev (posOf positions pd (m / (pd + 1))) sc pd) (m % (pd + 1))

/-- The barycentric weight recorded by row `m`. -/
def rowW (pd : ℕ) (positions sc : ℕ → ℚ) (m : ℕ) : ℚ :=
  bary pd (elev (posOf positions pd (m / (pd + 1))) sc pd) (m % (pd + 1))

/-- `createLattice` in sequential row order: row `m` inserts its corner
key with candidate slot `m` and records `{probe index, weight}`. -/
def createRows (pd : ℕ) (positions sc : ℕ → ℚ) :
    ℕ → HashTable → Option (List MatEntry × HashTable)
  | 0, t => some ([], t)
  | m + 1, t =>
    match createRows pd positions sc m t with
    | none => none
    | some (mat, t1) =>
      match insertT t1 (rowKey pd positions sc m) m with
      | none => none
      | some (h, t2) => some (mat ++ [⟨(h : ℤ), rowW pd positions sc m⟩], t2)

/-- `cleanHashTable` in sequential order over all `2*capacity` entry
cells: every occupied cell re-retrieves its own stored key and overwrites
its pointer with the canonical owner. -/
def cleanSeq : ℕ → HashTable → Option HashTable
  | 0, t => some t
  | p + 1, t =>
    match cleanSeq p t with
    | none => none
    | some t1 =>
      if 0 ≤ t1.entries.getD p 0 then
        match retrieveT t1 (keyAt t1 (t1.entries.getD p 0)) with
        | none => none
        | some r => some { t1 with entries := t1.entries.set p r }
      else some t1

/-- The `vd`-vector a row contributes during splat: value channels scaled
by the barycentric weight, then the weight itself as the mass channel. -/
def splatContrib (pd vd : ℕ) (inputs : ℕ → ℚ) (m : ℕ) (w : ℚ) : List ℚ :=
  ((List.range (vd - 1)).map (fun j => inputs ((m / (pd + 1)) * (vd - 1) + j) * w)) ++ [w]

/-- One row of `splatCache`: rewrite the matrix entry from probe index to
owning slot (`matrix[...].index = table.entries[r.index]`) and
accumulate the contribution into that slot's accumulator. -/
def splatRow (pd vd : ℕ) (inputs : ℕ → ℚ) (m : ℕ) (mt : List MatEntry × HashTable) :
    List MatEntry × HashTable :=
  let r := mt.1.getD m ⟨-1, 0⟩
  let s : ℤ := mt.2.entries.getD r.index.toNat 0
  let oldv := mt.2.values.getD s.toNat []
  (mt.1.set m ⟨s, r.weight⟩,
    { mt.2 with values :=
        mt.2.values.set s.toNat (oldv.zipWith (· + ·) (splatContrib pd vd inputs m r.weight)) })

/-- `splatCache` over the first `m` rows, in row order. -/
def splatSeq (pd vd : ℕ) (inputs : ℕ → ℚ) : ℕ → (List MatEntry × HashTable) →
    (List MatEntry × HashTable)
  | 0, mt => mt
  | m + 1, mt => splatRow pd vd inputs m (splatSeq pd vd inputs m mt)

/-- The `np` neighbor key of `blur`: every stored coordinate `+1`, then
`np[color] -= pd+1` (when `color = pd` this write lands on the implicit
last coordinate, outside the stored `pd` entries, and is dropped —
`List.set` past the end). -/
def npKey (pd : ℕ) (key : List ℤ) (color : ℕ) : List ℤ :=
  ((List.range pd).map (fun i => key.getD i 0 + 1)).set color
    (((List.range pd).map (fun i => key.getD i 0 + 1)).getD color 0 - ((pd : ℤ) + 1))

/-- The `nm` neighbor key of `blur`: every stored coordinate `-1`, then
`nm[color] += pd+1`. -/
def nmKey (pd : ℕ) (key : List ℤ) (color : ℕ) : List ℤ :=
  ((List.range pd).map (fun i => key.getD i 0 - 1)).set color
    (((List.range pd).map (fun i => key.getD i 0 - 1)).getD color 0 + ((pd : ℤ) + 1))

/-- A neighbor's accumulator: the zero vector when the neighbor is
missing (`retrieve` returned `-1`). -/
def blurVal (vd : ℕ) (t : HashTable) (off : ℤ) : List ℚ :=
  if 0 ≤ off then t.values.getD off.toNat [] else List.replicate vd 0

/-- The stencil value `0.25*np + 0.5*self + 0.25*nm` computed by `blur`
for the (valid) vertex `idx`. -/
def blurSlot (pd vd : ℕ) (color : ℕ) (t : HashTable) (idx : ℕ) : Option (List ℚ) :=
  match retrieveT t (npKey pd (t.keys.getD idx []) color),
        retrieveT t (nmKey pd (t.keys.getD idx []) color) with
  | some offNp, some offNm =>
    some ((List.range vd).map (fun i =>
      (0.25 : ℚ) * (blurVal vd t offNp).getD i 0
        + (0.5 : ℚ) * (t.values.getD idx []).getD i 0
        + (0.25 : ℚ) * (blurVal vd t offNm).getD i 0))
  | _, _ => none

/-- One blur round writes the stencil of every valid cell (`idx < c` with
`matrix[idx].index == idx`) into the output buffer; other cells of the
output buffer keep their previous contents. -/
def blurCells (pd vd : ℕ) (mat : List MatEntry) (color : ℕ) (t : HashTable) :
    ℕ → List (List ℚ) → Option (List (List ℚ))
  | 0, out => some out
  | idx + 1, out =>
    match blurCells pd vd mat color t idx out with
    | none => none
    | some out1 =>
      if (mat.getD idx ⟨-1, 0⟩).index = (idx : ℤ) then
        match blurSlot pd vd color t idx with
        | none => none
        | some v => some (out1.set idx v)
      else some out1

/-- One full blur round followed by the `std::swap(values, newValues)`:
the freshly written buffer becomes the current values, the old current
buffer becomes the next round's output buffer. -/
def blurRound (pd vd : ℕ) (mat : List MatEntry) (color : ℕ) (t : HashTable)
    (aux : List (List ℚ)) : Option (HashTable × List (List ℚ)) :=
  match blurCells pd vd mat color t t.capacity aux with
  | none => none
  | some newVals => some ({ t with values := newVals }, t.values)

/-- The sequence of blur rounds: colors `0..pd`, reversed when `reverse`. -/
def colorSeq (pd : ℕ) (reverse : Bool) : List ℕ :=
  if reverse then (List.range (pd + 1)).reverse else List.range (pd + 1)

/-- All blur rounds, swapping buffers after every round. -/
def blurColors (pd vd : ℕ) (mat : List MatEntry) :
    List ℕ → HashTable → List (List ℚ) → Option (HashTable × List (List ℚ))
  | [], t, aux => some (t, aux)
  | c :: rest, t, aux =>
    match blurRound pd vd mat c t aux with
    | none => none
    | some (t', aux') => blurColors pd vd mat rest t' aux'

/-- The guarded embedding of the reciprocal `1.0f / weight` taken by
`slice`: division by an accumulated mass of zero is the failure case. -/
def recipQ (w : ℚ) : Option ℚ := if w = 0 then none else some w⁻¹

/-- The accumulated mass `weight` of a sample in `slice`. -/
def sliceW (pd vd : ℕ) (t : HashTable) (mat : List MatEntry) (idx : ℕ) : ℚ :=
  ∑ i in Finset.range (pd + 1),
    (mat.getD (idx * (pd + 1) + i) ⟨-1, 0⟩).weight *
      (t.values.getD (mat.getD (idx * (pd + 1) + i) ⟨-1, 0⟩).index.toNat []).getD (vd - 1) 0

/-- The accumulated value channel `j` of a sample in `slice`. -/
def sliceValJ (pd vd : ℕ) (t : HashTable) (mat : List MatEntry) (idx j : ℕ) : ℚ :=
  ∑ i in Finset.range (pd + 1),
    (mat.getD (idx * (pd + 1) + i) ⟨-1, 0⟩).weight *
      (t.values.getD (mat.getD (idx * (pd + 1) + i) ⟨-1, 0⟩).index.toNat []).getD j 0

/-- `slice` for one sample: the weighted accumulator sums, normalized by
the reciprocal of the accumulated mass (no zero-mass guard in the code). -/
def sliceSample (pd vd : ℕ) (t : HashTable) (mat : List MatEntry) (idx : ℕ) :
    Option (List ℚ) :=
  (recipQ (sliceW pd vd t mat idx)).map
    (fun w => (List.range (vd - 1)).map (fun j => sliceValJ pd vd t mat idx j * w))

/-- `slice` over the first `n` samples, flattened in sample order. -/
def sliceSeq (pd vd : ℕ) (t : HashTable) (mat : List MatEntry) : ℕ → Option (List ℚ)
  | 0 => some []
  | idx + 1 =>
    match sliceSeq pd vd t mat idx, sliceSample pd vd t mat idx with
    | some acc, some out => some (acc ++ out)
    | _, _ => none

/-- The initial hash table of a `PermutohedralLatticeGPU(n)`: capacity
`n*(pd+1)`, all entries empty (`memset -1`), key and value storage zeroed. -/
def initTable (pd vd n : ℕ) : HashTable :=
  { capacity := n * (pd + 1)
  , entries := List.replicate (2 * (n * (pd + 1))) (-1)
  , keys := List.replicate (n * (pd + 1)) (List.replicate pd 0)
  , values := List.replicate (n * (pd + 1)) (List.replicate vd 0) }

/-- The auxiliary `newValues` buffer, zero-initialised. -/
def initAux (vd n c : ℕ) : List (List ℚ) := List.replicate c (List.replicate vd 0)

/-- `PermutohedralLatticeGPU::filter` in sequential semantics:
`createLattice` → `cleanHashTable` → `splatCache` → `pd+1` blur rounds
with buffer swaps → `slice`. -/
def filterSeq (pd vd n : ℕ) (inputs positions sc : ℕ → ℚ) (reverse : Bool) :
    Option (List ℚ) :=
  match createRows pd positions sc (n * (pd + 1)) (initTable pd vd n) with
  | none => none
  | some (mat, t1) =>
    match cleanSeq (2 * (n * (pd + 1))) t1 with
    | none => none
    | some t2 =>
      match blurColors pd vd (splatSeq pd vd inputs (n * (pd + 1)) (mat, t2)).1
          (colorSeq pd reverse) (splatSeq pd vd inputs (n * (pd + 1)) (mat, t2)).2
          (initAux vd n (n * (pd + 1))) with
      | none => none
      | some (t4, _) =>
          sliceSeq pd vd t4 (splatSeq pd vd inputs (n * (pd + 1)) (mat, t2)).1 n

/-! ## Specification-side definitions (for refinement claims)

These follow the specification's wording and are compared against the
source-derived definitions above. -/

/-- The `np` neighbor key as the specification words it: every stored
coordinate `+1`, offset `-(pd+1)` on the color axis. -/
def npKeySpec (pd : ℕ) (key : List ℤ) (color : ℕ) : List ℤ :=
  (List.range pd).map (fun i => key.getD i 0 + 1 - (if i = color then (pd : ℤ) + 1 else 0))

/-- The `nm` neighbor key as the specification words it: every stored
coordinate `-1`, offset `+(pd+1)` on the color axis. -/
def nmKeySpec (pd : ℕ) (key : List ℤ) (color : ℕ) : List ℤ :=
  (List.range pd).map (fun i => key.getD i 0 - 1 + (if i = color then (pd : ℤ) + 1 else 0))

/-- The blur stencil as the specification states it: retrieve the two
neighbors, treat a missing neighbor (retrieve `= -1`) as the zero vector,
and form `0.25*next + 0.5*self + 0.25*prev`. -/
def blurSlotSpec (pd vd : ℕ) (color : ℕ) (t : HashTable) (idx : ℕ) : Option (List ℚ) :=
  match retrieveT t (npKeySpec pd (t.keys.getD idx []) color),
        retrieveT t (nmKeySpec pd (t.keys.getD idx []) color) with
  | some offNp, some offNm =>
    some ((List.range vd).map (fun i =>
      (0.25 : ℚ) * (if 0 ≤ offNp then t.values.getD offNp.toNat [] else List.replicate vd 0).getD i 0
        + (0.5 : ℚ) * (t.values.getD idx []).getD i 0
        + (0.25 : ℚ) * (if 0 ≤ offNm then t.values.getD offNm.toNat [] else List.replicate vd 0).getD i 0))
  | _, _ => none

/-- One blur round as the specification states it: stencil every occupied
vertex into a separate output buffer (never in place). -/
def blurCellsSpec (pd vd : ℕ) (mat : List MatEntry) (color : ℕ) (t : HashTable) :
    ℕ → List (List ℚ) → Option (List (List ℚ))
  | 0, out => some out
  | idx + 1, out =>
    match blurCellsSpec pd vd mat color t idx out with
    | none => none
    | some out1 =>
      if (mat.getD idx ⟨-1, 0⟩).index = (idx : ℤ) then
        match blurSlotSpec pd vd color t idx with
        | none => none
        | some v => some (out1.set idx v)
      else some out1

/-- One blur round plus the buffer swap, as the specification states it:
after the round, the freshly written output buffer becomes current and
the previous current buffer becomes the next output buffer. -/
def blurRoundSpec (pd vd : ℕ) (mat : List MatEntry) (color : ℕ) (t : HashTable)
    (aux : List (List ℚ)) : Option (HashTable × List (List ℚ)) :=
  match blurCellsSpec pd vd mat color t t.capacity aux with
  | none => none
  | some newVals => some ({ t with values := newVals }, t.values)

/-! ## The constructor capacity check (`PermutohedralLatticeGPU::PermutohedralLatticeGPU`) -/

/-- Outcome of running the constructor's capacity check and allocations. -/
structure CtorRun where
  warnedOverflow : Bool
  aborted : Bool
  tableCapacity : ℕ
deriving DecidableEq

/-- The constructor: when `n >= 65535 * BLOCK_SIZE` (`BLOCK_SIZE = 256`)
it prints a warning, but execution continues into the allocations — the
source comment `//this should crash the program` notwithstanding, nothing
aborts and nothing is surfaced to the caller. -/
def latticeCtor (pd n : ℕ) : CtorRun :=
  { warnedOverflow := decide (65535 * 256 ≤ n)
  , aborted := false
  , tableCapacity := n * (pd + 1) }

/-! ## Concrete tables for counterexamples and witnesses -/

/-- A concrete saturated table (capacity 1): both probe cells point at
slot 0, whose stored key `[5]` differs from the probed key `[7]`. -/
def tFull : HashTable := ⟨1, [0, 0], [[5]], []⟩

/-- A concrete table with empty cells (capacity 1). -/
def tEmpty1 : HashTable := ⟨1, [-1, -1], [[0]], []⟩

/-- A concrete empty table of capacity 3 (as built for one sample with
`pd = 2`: `keys` zero-initialised, all entries empty). -/
def t0C1 : HashTable := ⟨3, List.replicate 6 (-1), List.replicate 3 [0], []⟩

/-- A zeroed table/matrix pair on which `slice` divides by zero mass. -/
def tZeroC10 : HashTable := initTable 1 2 1

def matC10 : List MatEntry := [⟨0, 1/2⟩, ⟨1, 1/2⟩]

/-- A table whose slot 0 accumulator carries mass 1. -/
def tMassC10 : HashTable := ⟨2, [0, 1, -1, -1], [[0], [1]], [[1, 1], [0, 0]]⟩

/-! ## Nonnegativity of the barycentric weights -/

/-- The rounding residual `elevated[i] - rem0[i]` before the correction. -/
def resid (pd : ℕ) (f : ℕ → ℚ) (i : ℕ) : ℚ := f i - (rem0P pd f i : ℚ)

/-- The rounding residual after the correction. -/
def residC (pd : ℕ) (f : ℕ → ℚ) (i : ℕ) : ℚ := f i - (remC pd f i : ℚ)

/-! ## Invariants of the sequential `createLattice` phase -/

structure CreateInv (pd vd n : ℕ) (positions sc : ℕ → ℚ) (m : ℕ)
    (mat : List MatEntry) (t : HashTable) : Prop where
  hcap : t.capacity = n * (pd + 1)
  hlen : t.entries.length = 2 * (n * (pd + 1))
  hklen : t.keys.length = n * (pd + 1)
  hvals : t.values = List.replicate (n * (pd + 1)) (List.replicate vd 0)
  hwf : ∀ x ∈ t.entries, -1 ≤ x ∧ x < (m : ℤ)
  hcnt : 2 * (n * (pd + 1)) - m ≤ t.entries.count (-1)
  hmlen : mat.length = m
  hrow : ∀ q, q < m →
    ∃ h : ℕ, h < 2 * (n * (pd + 1)) ∧
      mat.getD q ⟨-1, 0⟩ = ⟨((h : ℕ) : ℤ), rowW pd positions sc q⟩ ∧
      0 ≤ t.entries.getD h 0 ∧
      keyAt t (t.entries.getD h 0) = rowKey pd positions sc q
  hclean : ∀ p, p < 2 * (n * (pd + 1)) → 0 ≤ t.entries.getD p 0 →
    retrieveT t (keyAt t (t.entries.getD p 0)) = some (t.entries.getD p 0)
  howner : ∀ s : ℕ, s < m → ((s : ℤ)) ∈ t.entries →
    t.entries.getD (mat.getD s ⟨-1, 0⟩).index.toNat 0 = ((s : ℤ))

/-- A value buffer is proportional to the constant input field: every
value channel equals the input times the mass channel, at every slot. -/
def propVals (vd : ℕ) (inputs : ℕ → ℚ) (vals : List (List ℚ)) : Prop :=
  ∀ s j, j < vd - 1 →
    (vals.getD s []).getD j 0 = inputs j * (vals.getD s []).getD (vd - 1) 0

/-- The accumulated mass (homogeneous channel `vd-1`) at slot `s`. -/
def massAt (vd : ℕ) (vals : List (List ℚ)) (s : ℕ) : ℚ :=
  (vals.getD s []).getD (vd - 1) 0

/-- Cell `i` is a canonical lattice vertex: its matrix entry points to
itself (the test `matrix[idx].index == idx` of `blur`). -/
def validCell (mat : List MatEntry) (i : ℕ) : Prop :=
  (mat.getD i ⟨-1, 0⟩).index = (i : ℤ)

/-- Replace the value buffer of a table, all other fields untouched. -/
def valsUpd (t : HashTable) (vals : List (List ℚ)) : HashTable :=
  { t with values := vals }

/-- Invariant of the sequential splat after the first `M` rows, relative
to the matrix `mat0` and table `t0` produced by creation/cleaning. -/
structure SplatInv (pd vd : ℕ) (inputs positions sc : ℕ → ℚ)
    (mat0 : List MatEntry) (t0 : HashTable) (M : ℕ)
    (mat : List MatEntry) (t : HashTable) : Prop where
  hcap : t.capacity = t0.capacity
  hent : t.entries = t0.entries
  hkeys : t.keys = t0.keys
  hmlen : mat.length = mat0.length
  hvlen : t.values.length = t0.values.length
  hvd : ∀ l ∈ t.values, l.length = vd
  hprop : propVals vd inputs t.values
  hmass0 : ∀ s, 0 ≤ massAt vd t.values s
  hpend : ∀ m, M ≤ m → mat.getD m ⟨-1, 0⟩ = mat0.getD m ⟨-1, 0⟩
  hdone : ∀ m, m < M →
    mat.getD m ⟨-1, 0⟩ =
      ⟨t0.entries.getD (mat0.getD m ⟨-1, 0⟩).index.toNat 0, rowW pd positions sc m⟩ ∧
    rowW pd positions sc m ≤
      massAt vd t.values (t0.entries.getD (mat0.getD m ⟨-1, 0⟩).index.toNat 0).toNat

/-- Invariant carried through the blur rounds: both the current value
buffer and the swap buffer stay proportional to the constant input with
nonnegative mass; entries, keys and capacity never change. -/
structure BlurInv (vd : ℕ) (inputs : ℕ → ℚ) (t0 : HashTable)
    (t : HashTable) (aux : List (List ℚ)) : Prop where
  hcap : t.capacity = t0.capacity
  hent : t.entries = t0.entries
  hkeys : t.keys = t0.keys
  hvlen : t.values.length = t0.capacity
  halen : aux.length = t0.capacity
  hvd : ∀ l ∈ t.values, l.length = vd
  havd : ∀ l ∈ aux, l.length = vd
  hprop : propVals vd inputs t.values
  haprop : propVals vd inputs aux
  hmass : ∀ s, 0 ≤ massAt vd t.values s
  hamass : ∀ s, 0 ≤ massAt vd aux s

/-! ## Lemmas and theorems -/

/-! ## Analysis of the rounding step -/

lemma roundMult_closed (s : ℕ) (hs : 0 < s) (e : ℚ) :
    roundMult s e =
      if Int.fract (e * (1 / (s : ℚ))) ≤ 1 / 2 then ⌊e * (1 / (s : ℚ))⌋ * (s : ℤ)
      else (⌊e * (1 / (s : ℚ))⌋ + 1) * (s : ℤ) := by
  have hsQ : ((s : ℚ)) ≠ 0 := by exact_mod_cast hs.ne'
  have hsQ0 : (0 : ℚ) < (s : ℚ) := by exact_mod_cast hs
  set v : ℚ := e * (1 / (s : ℚ)) with hv
  have hev : e = v * (s : ℚ) := by
    rw [hv]; field_simp
  have hfr : Int.fract v = v - (⌊v⌋ : ℚ) := (Int.self_sub_floor v).symm
  rcases eq_or_lt_of_le (Int.fract_nonneg v) with h0 | h0
  · -- the elevated coordinate is an exact multiple of `s`
    have hvz : (⌊v⌋ : ℚ) = v := by linarith [hfr, h0.symm]
    have hceil : ⌈v⌉ = ⌊v⌋ := by
      rw [Int.ceil_eq_iff]
      constructor
      · linarith
      · linarith
    rw [roundMult]
    simp only [← hv, hceil]
    have heq : e = ((⌊v⌋ * (s : ℤ) : ℤ) : ℚ) := by
      push_cast
      rw [hvz]
      exact hev
    have hcond : ¬ (((⌊v⌋ * (s : ℤ) : ℤ) : ℚ) - e < e - ((⌊v⌋ * (s : ℤ) : ℤ) : ℚ)) := by
      rw [← heq]; simp
    rw [if_neg hcond, if_pos (by rw [← h0]; norm_num)]
  · -- strictly between two multiples: `ceil = floor + 1`
    have hlt : (⌊v⌋ : ℚ) < v := by linarith [hfr]
    have hceil : ⌈v⌉ = ⌊v⌋ + 1 := by
      have h1 := Int.ceil_le_floor_add_one v
      have h2 : ⌊v⌋ < ⌈v⌉ := Int.lt_ceil.mpr hlt
      omega
    rw [roundMult]
    simp only [← hv, hceil]
    have ht1 : Int.fract v < 1 := Int.fract_lt_one v
    have hcond : ((((⌊v⌋ + 1) * (s : ℤ) : ℤ) : ℚ) - e < e - ((⌊v⌋ * (s : ℤ) : ℤ) : ℚ)) ↔
        1 / 2 < Int.fract v := by
      constructor
      · intro h
        push_cast at h
        nlinarith
      · intro h
        push_cast
        nlinarith
    by_cases hhalf : Int.fract v ≤ 1 / 2
    · rw [if_neg (by rw [hcond]; exact not_lt.mpr hhalf), if_pos hhalf]
    · rw [if_pos (by rw [hcond]; exact lt_of_not_le hhalf), if_neg hhalf]

lemma roundMult_dvd (s : ℕ) (hs : 0 < s) (e : ℚ) : (s : ℤ) ∣ roundMult s e := by
  rw [roundMult_closed s hs e]
  split_ifs
  · exact dvd_mul_left _ _
  · exact dvd_mul_left _ _

lemma roundMult_resid (s : ℕ) (hs : 0 < s) (e : ℚ) :
    -((s : ℚ) / 2) < e - (roundMult s e : ℚ) ∧ e - (roundMult s e : ℚ) ≤ (s : ℚ) / 2 := by
  have hsQ : ((s : ℚ)) ≠ 0 := by exact_mod_cast hs.ne'
  have hsQ0 : (0 : ℚ) < (s : ℚ) := by exact_mod_cast hs
  set v : ℚ := e * (1 / (s : ℚ)) with hv
  have hev : e = v * (s : ℚ) := by rw [hv]; field_simp
  have hfr : v = (⌊v⌋ : ℚ) + Int.fract v := by rw [Int.fract]; ring
  have h0 := Int.fract_nonneg v
  have h1 := Int.fract_lt_one v
  rw [roundMult_closed s hs e, ← hv]
  split_ifs with hhalf
  · constructor
    · push_cast
      nlinarith
    · push_cast
      nlinarith
  · push_cast at hhalf ⊢
    constructor
    · nlinarith
    · nlinarith

lemma roundMult_tiesDown (s : ℕ) (hs : 0 < s) (e : ℚ) :
    roundMult s e = ⌈e * (1 / (s : ℚ)) - 1 / 2⌉ * (s : ℤ) := by
  set v : ℚ := e * (1 / (s : ℚ)) with hv
  have hfr : Int.fract v = v - (⌊v⌋ : ℚ) := (Int.self_sub_floor v).symm
  have h0 := Int.fract_nonneg v
  have h1 := Int.fract_lt_one v
  have hsplit : v - 1 / 2 = (Int.fract v - 1 / 2) + (⌊v⌋ : ℚ) := by rw [hfr]; ring
  rw [roundMult_closed s hs e, ← hv]
  split_ifs with hhalf
  · have : ⌈v - 1 / 2⌉ = ⌊v⌋ := by
      rw [hsplit, Int.ceil_add_int]
      have : ⌈Int.fract v - 1 / 2⌉ = 0 := by
        rw [Int.ceil_eq_iff]
        constructor
        · push_cast; linarith
        · push_cast; linarith
      omega
    rw [this]
  · have : ⌈v - 1 / 2⌉ = ⌊v⌋ + 1 := by
      rw [hsplit, Int.ceil_add_int]
      have : ⌈Int.fract v - 1 / 2⌉ = 1 := by
        rw [Int.ceil_eq_iff]
        constructor
        · push_cast; linarith [lt_of_not_le hhalf]
        · push_cast; linarith
      omega
    rw [this]

lemma roundMult_nearest (s : ℕ) (hs : 0 < s) (e : ℚ) (k : ℤ) :
    |e - (roundMult s e : ℚ)| ≤ |e - ((k * (s : ℤ) : ℤ) : ℚ)| := by
  have hsQ0 : (0 : ℚ) < (s : ℚ) := by exact_mod_cast hs
  have hres := roundMult_resid s hs e
  have hdvd := roundMult_dvd s hs e
  obtain ⟨m, hm⟩ := hdvd
  rcases le_or_lt (roundMult s e) (k * s) with hk | hk
  · -- the competing multiple is at least ours
    rcases eq_or_lt_of_le hk with heq | hlt
    · rw [← heq]
    · have hstep : (roundMult s e : ℚ) + (s : ℚ) ≤ ((k * (s : ℤ) : ℤ) : ℚ) := by
        have h' : roundMult s e + (s : ℤ) ≤ k * s := by
          have hm' : roundMult s e = m * (s : ℤ) := by rw [hm]; ring
          rw [hm'] at hlt ⊢
          have hmk : m < k := lt_of_mul_lt_mul_right hlt (by positivity)
          nlinarith [hmk, (by exact_mod_cast hs : (0:ℤ) < (s:ℤ))]
        exact_mod_cast h'
      have h2 : e - ((k * (s : ℤ) : ℤ) : ℚ) ≤ -((s : ℚ) / 2) := by nlinarith [hres.2]
      rw [abs_le]
      constructor
      · have : -|e - ((k * (s : ℤ) : ℤ) : ℚ)| ≤ -((s : ℚ)/2) := by
          rw [neg_le_neg_iff]
          calc (s : ℚ)/2 ≤ -(e - ((k * (s : ℤ) : ℤ) : ℚ)) := by linarith
          _ ≤ |e - ((k * (s : ℤ) : ℤ) : ℚ)| := neg_le_abs _
        linarith [hres.1]
      · calc e - (roundMult s e : ℚ) ≤ (s : ℚ)/2 := hres.2
        _ ≤ -(e - ((k * (s : ℤ) : ℤ) : ℚ)) := by linarith
        _ ≤ |e - ((k * (s : ℤ) : ℤ) : ℚ)| := neg_le_abs _
  · -- the competing multiple is strictly below ours
    have hstep : ((k * (s : ℤ) : ℤ) : ℚ) + (s : ℚ) ≤ (roundMult s e : ℚ) := by
      have h' : k * (s : ℤ) + (s : ℤ) ≤ roundMult s e := by
        have hm' : roundMult s e = m * (s : ℤ) := by rw [hm]; ring
        rw [hm'] at hk ⊢
        have hkm : k < m := lt_of_mul_lt_mul_right hk (by positivity)
        nlinarith [hkm, (by exact_mod_cast hs : (0:ℤ) < (s:ℤ))]
      exact_mod_cast h'
    have h2 : (s : ℚ) / 2 < e - ((k * (s : ℤ) : ℤ) : ℚ) := by nlinarith [hres.1]
    rw [abs_le]
    constructor
    · have : (s : ℚ)/2 ≤ |e - ((k * (s : ℤ) : ℤ) : ℚ)| := le_trans h2.le (le_abs_self _)
      linarith [hres.1]
    · calc e - (roundMult s e : ℚ) ≤ (s : ℚ)/2 := hres.2
      _ ≤ |e - ((k * (s : ℤ) : ℤ) : ℚ)| := le_trans h2.le (le_abs_self _)

/-! ## Analysis of the elevation step -/

lemma smD_closed (pos sc : ℕ → ℚ) (pd : ℕ) :
    ∀ k, k ≤ pd → smD pos sc pd k = ∑ j in Finset.Ico (pd - k) pd, pos j * sc j := by
  intro k
  induction k with
  | zero =>
    intro _
    rw [Nat.sub_zero, Finset.Ico_self, Finset.sum_empty]
    rfl
  | succ k ih =>
    intro hk
    have hk' : k ≤ pd := Nat.le_of_succ_le hk
    have hklt : k < pd := hk
    rw [smD, ih hk', cf]
    have h1 : pd - (k + 1) < pd := by omega
    have h2 : pd - (k + 1) + 1 = pd - k := by omega
    have h3 : pd - k - 1 = pd - (k + 1) := by omega
    rw [Finset.sum_eq_sum_Ico_succ_bot h1, h2, h3]
    ring

lemma elev_zero (pos sc : ℕ → ℚ) (pd : ℕ) :
    elev pos sc pd 0 = ∑ j in Finset.range pd, pos j * sc j := by
  rw [elev, if_pos rfl, smD_closed pos sc pd pd le_rfl, Nat.sub_self, ← Finset.range_eq_Ico]

lemma elev_pos (pos sc : ℕ → ℚ) (pd : ℕ) (i : ℕ) (h1 : 1 ≤ i) (h2 : i ≤ pd) :
    elev pos sc pd i =
      (∑ j in Finset.Ico i pd, pos j * sc j) - (i : ℚ) * (pos (i - 1) * sc (i - 1)) := by
  rw [elev, if_neg (by omega), smD_closed pos sc pd (pd - i) (by omega), cf]
  have : pd - (pd - i) = i := by omega
  rw [this]

lemma elev_sum_aux (pos sc : ℕ → ℚ) (pd : ℕ) :
    ∀ k, k ≤ pd →
      ∑ i in Finset.Ico (pd + 1 - k) (pd + 1), elev pos sc pd i =
        -(((pd + 1 - k : ℕ) : ℚ)) * ∑ j in Finset.Ico (pd - k) pd, pos j * sc j := by
  intro k
  induction k with
  | zero =>
    intro _
    rw [Nat.sub_zero, Finset.Ico_self, Finset.sum_empty, Nat.sub_zero]
    rw [Finset.Ico_self, Finset.sum_empty, mul_zero]
  | succ k ih =>
    intro hk
    have hk' : k ≤ pd := Nat.le_of_succ_le hk
    set m : ℕ := pd - k with hm
    have hm1 : 1 ≤ m := by omega
    have hmpd : m ≤ pd := by omega
    have ha : pd + 1 - (k + 1) = m := by omega
    have hb : m + 1 = pd + 1 - k := by omega
    rw [ha, Finset.sum_eq_sum_Ico_succ_bot (by omega : m < pd + 1), hb, ih hk',
      elev_pos pos sc pd m hm1 hmpd]
    have hc : pd - (k + 1) = m - 1 := by omega
    rw [hc]
    have hd : ∑ j in Finset.Ico (m - 1) pd, pos j * sc j =
        pos (m - 1) * sc (m - 1) + ∑ j in Finset.Ico m pd, pos j * sc j := by
      rw [Finset.sum_eq_sum_Ico_succ_bot (by omega : m - 1 < pd)]
      have : m - 1 + 1 = m := by omega
      rw [this]
    have he : ((pd + 1 - k : ℕ) : ℚ) = (m : ℚ) + 1 := by
      have : pd + 1 - k = m + 1 := by omega
      rw [this]; push_cast; ring
    rw [hd, he]
    ring

/-- The elevated coordinates of a sample sum to zero exactly. -/
lemma elev_sum_eq_zero (pos sc : ℕ → ℚ) (pd : ℕ) :
    ∑ i in Finset.range (pd + 1), elev pos sc pd i = 0 := by
  have h0 : Finset.range (pd + 1) = Finset.Ico 0 (pd + 1) := by rw [Finset.range_eq_Ico]
  rw [h0, Finset.sum_eq_sum_Ico_succ_bot (by omega : 0 < pd + 1)]
  have h1 := elev_sum_aux pos sc pd pd le_rfl
  have h2 : pd + 1 - pd = 1 := by omega
  have h3 : pd - pd = 0 := by omega
  rw [h2, h3] at h1
  rw [h1, elev_zero, ← Finset.range_eq_Ico]
  push_cast
  ring

/-! ## The correction sum and rank bounds -/

lemma sumRem_eq_mul_sumV (pd : ℕ) (f : ℕ → ℚ) :
    sumRem pd f = ((pd : ℤ) + 1) * sumV pd f := by
  have hdvd : ((pd : ℤ) + 1) ∣ sumRem pd f := by
    apply Finset.dvd_sum
    intro i _
    have := roundMult_dvd (pd + 1) (by omega) (f i)
    exact_mod_cast this
  obtain ⟨c, hc⟩ := hdvd
  rw [sumV, hc, Int.mul_tdiv_cancel_left c (by omega)]

lemma sumV_abs_le (pd : ℕ) (f : ℕ → ℚ)
    (hS : ∑ i in Finset.range (pd + 1), f i = 0) :
    -((pd : ℤ) + 1) ≤ sumV pd f ∧ sumV pd f ≤ (pd : ℤ) + 1 := by
  have hsQ0 : (0 : ℚ) < ((pd : ℚ) + 1) := by positivity
  have hbound : |((sumRem pd f : ℤ) : ℚ)| ≤ ((pd : ℚ) + 1) ^ 2 / 2 := by
    have h1 : ((sumRem pd f : ℤ) : ℚ) =
        ∑ i in Finset.range (pd + 1), (((rem0P pd f i : ℤ) : ℚ) - f i) := by
      rw [sumRem]
      push_cast
      rw [Finset.sum_sub_distrib, hS, sub_zero]
    rw [h1]
    calc |∑ i in Finset.range (pd + 1), (((rem0P pd f i : ℤ) : ℚ) - f i)|
        ≤ ∑ i in Finset.range (pd + 1), |(((rem0P pd f i : ℤ) : ℚ) - f i)| :=
          Finset.abs_sum_le_sum_abs _ _
      _ ≤ ∑ _i in Finset.range (pd + 1), ((pd : ℚ) + 1) / 2 := by
          apply Finset.sum_le_sum
          intro i _
          have hres := roundMult_resid (pd + 1) (by omega) (f i)
          simp only [rem0P]
          rw [abs_le]
          have : (((pd + 1 : ℕ) : ℚ)) = (pd : ℚ) + 1 := by push_cast; ring
          rw [this] at hres
          constructor
          · linarith [hres.2]
          · linarith [hres.1]
      _ = ((pd : ℚ) + 1) ^ 2 / 2 := by
          rw [Finset.sum_const, Finset.card_range, nsmul_eq_mul]
          push_cast
          ring
  have habs : |((sumV pd f : ℤ) : ℚ)| ≤ ((pd : ℚ) + 1) := by
    have h2 : ((sumRem pd f : ℤ) : ℚ) = ((pd : ℚ) + 1) * ((sumV pd f : ℤ) : ℚ) := by
      rw [sumRem_eq_mul_sumV pd f]
      push_cast
      ring
    rw [h2, abs_mul, abs_of_pos hsQ0] at hbound
    nlinarith [abs_nonneg ((sumV pd f : ℤ) : ℚ)]
  have h3 : |sumV pd f| ≤ (pd : ℤ) + 1 := by exact_mod_cast habs
  rw [abs_le] at h3
  exact ⟨by linarith [h3.1], h3.2⟩

lemma rankP_le (pd : ℕ) (f : ℕ → ℚ) (i : ℕ) (hi : i < pd + 1) : rankP pd f i ≤ pd := by
  rw [rankP]
  have hsub : ((Finset.range (pd + 1)).filter (fun j =>
      f i - (rem0P pd f i : ℚ) < f j - (rem0P pd f j : ℚ) ∨
      (f i - (rem0P pd f i : ℚ) = f j - (rem0P pd f j : ℚ) ∧ j < i))) ⊆
      (Finset.range (pd + 1)).erase i := by
    intro j hj
    rw [Finset.mem_filter] at hj
    rw [Finset.mem_erase]
    refine ⟨?_, hj.1⟩
    rintro rfl
    rcases hj.2 with h | h
    · exact lt_irrefl _ h
    · exact lt_irrefl _ h.2
  calc ((Finset.range (pd + 1)).filter _).card ≤ ((Finset.range (pd + 1)).erase i).card :=
        Finset.card_le_card hsub
    _ = pd := by
        rw [Finset.card_erase_of_mem (Finset.mem_range.mpr hi), Finset.card_range]
        omega

lemma rankC_range (pd : ℕ) (f : ℕ → ℚ) (i : ℕ) (hi : i < pd + 1)
    (hS : ∑ i in Finset.range (pd + 1), f i = 0) :
    0 ≤ rankC pd f i ∧ rankC pd f i ≤ (pd : ℤ) := by
  have hV := sumV_abs_le pd f hS
  have hle : (rankP pd f i : ℤ) ≤ (pd : ℤ) := by exact_mod_cast rankP_le pd f i hi
  have hge : (0 : ℤ) ≤ (rankP pd f i : ℤ) := Int.ofNat_nonneg _
  rw [rankC]
  split_ifs with h1 h2 h3 h4 <;> omega

/-! ## The barycentric weights sum to exactly one -/

lemma sum_ite_int (n : ℕ) (A : ℤ) (q : ℚ) (h0 : 0 ≤ A) (h1 : A < (n : ℤ)) :
    ∑ r in Finset.range n, (if (r : ℤ) = A then q else 0) = q := by
  have hconv : ∀ r ∈ Finset.range n,
      (if (r : ℤ) = A then q else 0) = (if r = A.toNat then q else 0) := by
    intro r _
    congr 1
    simp only [eq_iff_iff]
    omega
  rw [Finset.sum_congr rfl hconv,
    Finset.sum_ite_eq' (Finset.range n) A.toNat (fun _ => q),
    if_pos (Finset.mem_range.mpr (by omega))]

lemma baryAux_total (pd : ℕ) (f : ℕ → ℚ)
    (hS : ∑ i in Finset.range (pd + 1), f i = 0) :
    ∀ k, k ≤ pd + 1 →
      ∑ r in Finset.range (pd + 2), baryAux pd f k (r : ℤ) = 0 := by
  intro k
  induction k with
  | zero =>
    intro _
    simp only [baryAux]
    exact Finset.sum_const_zero
  | succ k ih =>
    intro hk
    have hk' : k ≤ pd + 1 := Nat.le_of_succ_le hk
    have hrange := rankC_range pd f k (by omega) hS
    have hA : ∑ r in Finset.range (pd + 2),
        (if (r : ℤ) = (pd : ℤ) - rankC pd f k then delta pd f k else 0) = delta pd f k := by
      apply sum_ite_int
      · omega
      · push_cast
        omega
    have hB : ∑ r in Finset.range (pd + 2),
        (if (r : ℤ) = (pd : ℤ) + 1 - rankC pd f k then delta pd f k else 0) = delta pd f k := by
      apply sum_ite_int
      · omega
      · push_cast
        omega
    simp only [baryAux]
    rw [Finset.sum_sub_distrib, Finset.sum_add_distrib, ih hk', hA, hB]
    ring

/-- The `pd+1` barycentric weights of a sample sum to exactly 1, provided
the (elevated) coordinate vector sums to zero. -/
lemma bary_sum (pd : ℕ) (f : ℕ → ℚ)
    (hS : ∑ i in Finset.range (pd + 1), f i = 0) :
    ∑ r in Finset.range (pd + 1), bary pd f r = 1 := by
  have htot := baryAux_total pd f hS (pd + 1) le_rfl
  rw [Finset.sum_range_succ, Finset.sum_range_succ' _ pd] at htot
  rw [Finset.sum_range_succ' _ pd]
  have h1 : ∀ i ∈ Finset.range pd,
      bary pd f (i + 1) = baryAux pd f (pd + 1) (((i + 1 : ℕ) : ℤ)) := by
    intro i _
    rw [bary, if_neg (Nat.succ_ne_zero i)]
  rw [Finset.sum_congr rfl h1]
  have h2 : bary pd f 0 = baryAux pd f (pd + 1) (((0 : ℕ) : ℤ)) + 1
      + baryAux pd f (pd + 1) (((pd + 1 : ℕ) : ℤ)) := by
    rw [bary, if_pos rfl]
    have hc : (((pd + 1 : ℕ) : ℤ)) = (pd : ℤ) + 1 := by push_cast; ring
    rw [hc]
    norm_num
  rw [h2]
  linarith [htot]

lemma hashK_aux (key : List ℤ) :
    ∀ a : ℕ, a < 2 ^ 32 →
      key.foldl (fun k ki => ((((k : ℕ) : ℤ) + ki) * 2531011 % 2 ^ 32).toNat) a =
        (((a : ℤ) * 2531011 ^ key.length +
            ∑ i in Finset.range key.length,
              key.getD i 0 * 2531011 ^ (key.length - i)) % 2 ^ 32).toNat := by
  induction key with
  | nil =>
    intro a ha
    simp only [List.foldl_nil, List.length_nil, pow_zero, mul_one, Finset.range_zero,
      Finset.sum_empty, add_zero]
    rw [Int.emod_eq_of_lt (by positivity) (by exact_mod_cast ha)]
    simp
  | cons x xs ih =>
    intro a ha
    rw [List.foldl_cons]
    have hstep : ((((a : ℕ) : ℤ) + x) * 2531011 % 2 ^ 32).toNat < 2 ^ 32 := by
      have h1 : (0 : ℤ) < 2 ^ 32 := by positivity
      have := Int.emod_lt_of_pos ((((a : ℕ) : ℤ) + x) * 2531011) h1
      omega
    rw [ih _ hstep]
    congr 1
    have hnn : (0 : ℤ) ≤ (((a : ℕ) : ℤ) + x) * 2531011 % 2 ^ 32 :=
      Int.emod_nonneg _ (by positivity)
    rw [Int.toNat_of_nonneg hnn]
    have hlen : (x :: xs).length = xs.length + 1 := rfl
    rw [hlen]
    have hsum : ∑ i in Finset.range (xs.length + 1),
        (x :: xs).getD i 0 * 2531011 ^ (xs.length + 1 - i) =
        x * 2531011 ^ (xs.length + 1) +
          ∑ i in Finset.range xs.length, xs.getD i 0 * 2531011 ^ (xs.length - i) := by
      rw [Finset.sum_range_succ' _ xs.length]
      simp only [List.getD_cons_succ, List.getD_cons_zero, Nat.sub_zero]
      rw [add_comm]
      congr 1
      apply Finset.sum_congr rfl
      intro i hi
      rw [Finset.mem_range] at hi
      have hexp : xs.length + 1 - (i + 1) = xs.length - i := by omega
      rw [hexp]
    rw [hsum]
    -- reduce both sides modulo 2^32
    have key_eq : ((((a : ℤ) + x) * 2531011 % 2 ^ 32) * 2531011 ^ xs.length) =
        (((a : ℤ) + x) * 2531011) * 2531011 ^ xs.length +
          (2 ^ 32) * (-(((a : ℤ) + x) * 2531011 / 2 ^ 32) * 2531011 ^ xs.length) := by
      rw [Int.emod_def]
      ring
    rw [key_eq, add_right_comm, Int.add_mul_emod_self_left]
    congr 1
    ring

/-- `hashK` in closed form: the wrapped value of
`sum_i key[i] * 2531011^(pd-i)` — note the exponent `pd - i`, not
`pd-1-i`: the multiplication happens after the addition. -/
lemma hashK_closed (key : List ℤ) :
    hashK key =
      ((∑ i in Finset.range key.length,
          key.getD i 0 * 2531011 ^ (key.length - i)) % 2 ^ 32).toNat := by
  have := hashK_aux key 0 (by norm_num)
  rw [hashK, this]
  norm_num

/-! ## List access helpers -/

lemma getD_set_self {α : Type*} (l : List α) (i : ℕ) (v d : α) (h : i < l.length) :
    (l.set i v).getD i d = v := by
  rw [List.getD_eq_getElem?_getD, List.getElem?_set_self (by simpa using h)]
  rfl

lemma getD_set_other {α : Type*} (l : List α) (i j : ℕ) (v d : α) (hne : i ≠ j) :
    (l.set i v).getD j d = l.getD j d := by
  rw [List.getD_eq_getElem?_getD, List.getElem?_set_ne hne, ← List.getD_eq_getElem?_getD]

lemma getD_mem {α : Type*} (l : List α) (n : ℕ) (d : α) (h : n < l.length) :
    l.getD n d ∈ l := by
  rw [List.getD_eq_getElem?_getD, List.getElem?_eq_getElem h]
  exact List.getElem_mem _

/-! ## Probe loop lemmas -/

lemma nextIdx_lt (c h : ℕ) (hh : h < 2 * c) : nextIdx c h < 2 * c := by
  rw [nextIdx]; split_ifs <;> omega

lemma nextIdx_mod (c h : ℕ) (hh : h < 2 * c) : nextIdx c h = (h + 1) % (2 * c) := by
  rw [nextIdx]
  split_ifs with h1
  · rw [h1, Nat.mod_self]
  · rw [Nat.mod_eq_of_lt (by omega)]

/-- `retrieve` resolves within the probe budget as soon as an empty cell
lies on the (cyclic) probe path. -/
lemma retrieveAux_isSome_of_empty (t : HashTable) (key : List ℤ) :
    ∀ k fuel h, h < 2 * t.capacity → k < fuel →
      t.entries.getD ((h + k) % (2 * t.capacity)) 0 = -1 →
      (retrieveAux t key fuel h).isSome := by
  intro k
  induction k with
  | zero =>
    intro fuel h hh hf hemp
    rw [Nat.add_zero, Nat.mod_eq_of_lt hh] at hemp
    cases fuel with
    | zero => omega
    | succ fuel =>
      rw [retrieveAux, if_pos hemp]
      rfl
  | succ k ih =>
    intro fuel h hh hf hemp
    cases fuel with
    | zero => omega
    | succ fuel =>
      rw [retrieveAux]
      by_cases h1 : t.entries.getD h 0 = -1
      · rw [if_pos h1]; rfl
      · rw [if_neg h1]
        by_cases h2 : keyAt t (t.entries.getD h 0) = key
        · rw [if_pos h2]; rfl
        · rw [if_neg h2]
          apply ih fuel (nextIdx t.capacity h) (nextIdx_lt _ _ hh) (by omega)
          rw [nextIdx_mod _ _ hh, Nat.mod_add_mod]
          have harr : h + 1 + k = h + (k + 1) := by ring
          rw [harr]
          exact hemp

/-- `insert` likewise resolves within the probe budget as soon as an
empty cell lies on the probe path. -/
lemma insertAux_isSome_of_empty (key : List ℤ) (slot : ℕ) (t : HashTable) :
    ∀ k fuel h, h < 2 * t.capacity → k < fuel →
      t.entries.getD ((h + k) % (2 * t.capacity)) 0 = -1 →
      (insertAux key slot fuel t h).isSome := by
  intro k
  induction k with
  | zero =>
    intro fuel h hh hf hemp
    rw [Nat.add_zero, Nat.mod_eq_of_lt hh] at hemp
    cases fuel with
    | zero => omega
    | succ fuel =>
      rw [insertAux, if_pos hemp]
      rfl
  | succ k ih =>
    intro fuel h hh hf hemp
    cases fuel with
    | zero => omega
    | succ fuel =>
      rw [insertAux]
      by_cases h1 : t.entries.getD h 0 = -1
      · rw [if_pos h1]; rfl
      · rw [if_neg h1]
        have hnext : t.entries.getD ((nextIdx t.capacity h + k) % (2 * t.capacity)) 0 = -1 := by
          rw [nextIdx_mod _ _ hh, Nat.mod_add_mod]
          have harr : h + 1 + k = h + (k + 1) := by ring
          rw [harr]
          exact hemp
        by_cases h2 : t.entries.getD h 0 = -2
        · rw [if_pos h2]
          exact ih fuel (nextIdx t.capacity h) (nextIdx_lt _ _ hh) (by omega) hnext
        · rw [if_neg h2]
          by_cases h3 : keyAt t (t.entries.getD h 0) = key
          · rw [if_pos h3]; rfl
          · rw [if_neg h3]
            exact ih fuel (nextIdx t.capacity h) (nextIdx_lt _ _ hh) (by omega) hnext

/-- A successful `insert` either found the key at the returned probe
index (table unchanged) or claimed an empty cell there (one entry and one
key row written). -/
lemma insertAux_spec (key : List ℤ) (slot : ℕ) :
    ∀ fuel t h h' t', insertAux key slot fuel t h = some (h', t') →
      (t' = t ∧ t.entries.getD h' 0 ≠ -1 ∧ t.entries.getD h' 0 ≠ -2 ∧
        keyAt t (t.entries.getD h' 0) = key) ∨
      (t.entries.getD h' 0 = -1 ∧ t' = claimUpd t h' slot key) := by
  intro fuel
  induction fuel with
  | zero =>
    intro t h h' t' hins
    simp [insertAux] at hins
  | succ fuel ih =>
    intro t h h' t' hins
    rw [insertAux] at hins
    by_cases h1 : t.entries.getD h 0 = -1
    · rw [if_pos h1] at hins
      simp only [Option.some.injEq, Prod.mk.injEq] at hins
      obtain ⟨rfl, rfl⟩ := hins
      exact Or.inr ⟨h1, rfl⟩
    · rw [if_neg h1] at hins
      by_cases h2 : t.entries.getD h 0 = -2
      · rw [if_pos h2] at hins
        exact ih t (nextIdx t.capacity h) h' t' hins
      · rw [if_neg h2] at hins
        by_cases h3 : keyAt t (t.entries.getD h 0) = key
        · rw [if_pos h3] at hins
          simp only [Option.some.injEq, Prod.mk.injEq] at hins
          obtain ⟨rfl, rfl⟩ := hins
          exact Or.inl ⟨rfl, h1, h2, h3⟩
        · rw [if_neg h3] at hins
          exact ih t (nextIdx t.capacity h) h' t' hins

lemma insertAux_capacity (key : List ℤ) (slot : ℕ) (fuel : ℕ) (t : HashTable) (h h' : ℕ)
    (t' : HashTable) (hins : insertAux key slot fuel t h = some (h', t')) :
    t'.capacity = t.capacity := by
  rcases insertAux_spec key slot fuel t h h' t' hins with ⟨rfl, _⟩ | ⟨_, rfl⟩
  · rfl
  · rfl

lemma insertAux_idx_lt (key : List ℤ) (slot : ℕ) :
    ∀ fuel t h h' t', insertAux key slot fuel t h = some (h', t') →
      h < 2 * t.capacity → h' < 2 * t.capacity := by
  intro fuel
  induction fuel with
  | zero =>
    intro t h h' t' hins
    simp [insertAux] at hins
  | succ fuel ih =>
    intro t h h' t' hins hh
    rw [insertAux] at hins
    by_cases h1 : t.entries.getD h 0 = -1
    · rw [if_pos h1] at hins
      simp only [Option.some.injEq, Prod.mk.injEq] at hins
      omega
    · rw [if_neg h1] at hins
      by_cases h2 : t.entries.getD h 0 = -2
      · rw [if_pos h2] at hins
        exact ih t _ h' t' hins (nextIdx_lt _ _ hh)
      · rw [if_neg h2] at hins
        by_cases h3 : keyAt t (t.entries.getD h 0) = key
        · rw [if_pos h3] at hins
          simp only [Option.some.injEq, Prod.mk.injEq] at hins
          omega
        · rw [if_neg h3] at hins
          exact ih t _ h' t' hins (nextIdx_lt _ _ hh)

/-- Immediately after a successful `insert`, a `retrieve` that starts at
the same probe index follows the same probe path and resolves at the same
cell, returning the entry stored there (the owning slot). -/
lemma retrieveAux_after_insert (key : List ℤ) (slot : ℕ) :
    ∀ fuel t h h' t',
      insertAux key slot fuel t h = some (h', t') →
      (∀ x ∈ t.entries, -1 ≤ x) →
      ((slot : ℤ)) ∉ t.entries →
      slot < t.keys.length →
      t.entries.length = 2 * t.capacity →
      h < 2 * t.capacity →
      retrieveAux t' key fuel h = some (t'.entries.getD h' 0) := by
  intro fuel
  induction fuel with
  | zero =>
    intro t h h' t' hins
    simp [insertAux] at hins
  | succ fuel ih =>
    intro t h h' t' hins hwf hfresh hslot hlen hh
    rw [insertAux] at hins
    by_cases h1 : t.entries.getD h 0 = -1
    · -- claimed the empty cell at `h`
      rw [if_pos h1] at hins
      simp only [Option.some.injEq, Prod.mk.injEq] at hins
      obtain ⟨rfl, rfl⟩ := hins
      rw [retrieveAux]
      have hget : (claimUpd t h slot key).entries.getD h 0 = ((slot : ℤ)) := by
        rw [claimUpd]
        exact getD_set_self _ _ _ _ (by omega)
      rw [hget]
      rw [if_neg (by omega)]
      have hkey : keyAt (claimUpd t h slot key) ((slot : ℤ)) = key := by
        rw [keyAt, claimUpd]
        simp only [Int.toNat_natCast]
        exact getD_set_self _ _ _ _ hslot
      rw [if_pos hkey]
    · rw [if_neg h1] at hins
      have hmem : t.entries.getD h 0 ∈ t.entries := getD_mem _ _ _ (by omega)
      have hge : -1 ≤ t.entries.getD h 0 := hwf _ hmem
      have h2 : t.entries.getD h 0 ≠ -2 := by omega
      rw [if_neg h2] at hins
      by_cases h3 : keyAt t (t.entries.getD h 0) = key
      · -- found the key at `h`
        rw [if_pos h3] at hins
        simp only [Option.some.injEq, Prod.mk.injEq] at hins
        obtain ⟨rfl, rfl⟩ := hins
        rw [retrieveAux, if_neg h1, if_pos h3]
      · -- mismatch: both loops move on to the next cell
        rw [if_neg h3] at hins
        have hcap : t'.capacity = t.capacity := insertAux_capacity _ _ _ _ _ _ _ hins
        have hIH := ih t (nextIdx t.capacity h) h' t' hins hwf hfresh hslot hlen
          (nextIdx_lt _ _ hh)
        rw [retrieveAux]
        have he0 : (0 : ℤ) ≤ t.entries.getD h 0 := by omega
        have hne_slot : t.entries.getD h 0 ≠ ((slot : ℤ)) := by
          intro hcontra
          exact hfresh (hcontra ▸ hmem)
        rcases insertAux_spec key slot fuel t (nextIdx t.capacity h) h' t' hins with
          ⟨rfl, _⟩ | ⟨hemp, rfl⟩
        · -- table unchanged
          rw [if_neg h1, if_neg h3, hcap]
          exact hIH
        · -- a fresh cell `h'` was claimed further along the path
          have hhne : h' ≠ h := by
            intro hcontra
            rw [hcontra] at hemp
            exact h1 hemp
          have hget : (claimUpd t h' slot key).entries.getD h 0 = t.entries.getD h 0 := by
            rw [claimUpd]
            exact getD_set_other _ _ _ _ _ hhne
          rw [hget, if_neg h1]
          have hkeyeq : keyAt (claimUpd t h' slot key) (t.entries.getD h 0) =
              keyAt t (t.entries.getD h 0) := by
            rw [keyAt, keyAt, claimUpd]
            apply getD_set_other
            intro hcontra
            apply hne_slot
            omega
          rw [hkeyeq, if_neg h3, hcap]
          exact hIH

/-- A successful `retrieve` that found an owner (result `≥ 0`) is
unaffected by a later claim of some empty cell for a fresh slot. -/
lemma retrieveAux_claimUpd (t : HashTable) (p slot : ℕ) (key k0 : List ℤ) (s : ℤ)
    (hemp : t.entries.getD p 0 = -1)
    (hwf : ∀ x ∈ t.entries, -1 ≤ x)
    (hfresh : ((slot : ℤ)) ∉ t.entries)
    (hlen : t.entries.length = 2 * t.capacity) :
    ∀ fuel h, h < 2 * t.capacity →
      retrieveAux t k0 fuel h = some s → 0 ≤ s →
      retrieveAux (claimUpd t p slot key) k0 fuel h = some s := by
  intro fuel
  induction fuel with
  | zero =>
    intro h hh hr
    simp [retrieveAux] at hr
  | succ fuel ih =>
    intro h hh hr hs
    rw [retrieveAux] at hr
    by_cases h1 : t.entries.getD h 0 = -1
    · rw [if_pos h1] at hr
      simp only [Option.some.injEq] at hr
      omega
    · rw [if_neg h1] at hr
      have hmem : t.entries.getD h 0 ∈ t.entries := getD_mem _ _ _ (by omega)
      have hge : -1 ≤ t.entries.getD h 0 := hwf _ hmem
      have hne_slot : t.entries.getD h 0 ≠ ((slot : ℤ)) := fun hc => hfresh (hc ▸ hmem)
      have hpne : p ≠ h := by
        intro hc
        rw [hc] at hemp
        exact h1 hemp
      have hget : (claimUpd t p slot key).entries.getD h 0 = t.entries.getD h 0 := by
        rw [claimUpd]
        exact getD_set_other _ _ _ _ _ hpne
      have hkeyeq : keyAt (claimUpd t p slot key) (t.entries.getD h 0) =
          keyAt t (t.entries.getD h 0) := by
        rw [keyAt, keyAt, claimUpd]
        apply getD_set_other
        intro hcontra
        apply hne_slot
        omega
      rw [retrieveAux, hget, if_neg h1, hkeyeq]
      by_cases h2 : keyAt t (t.entries.getD h 0) = k0
      · rw [if_pos h2] at hr
        rw [if_pos h2]
        exact hr
      · rw [if_neg h2] at hr
        rw [if_neg h2]
        exact ih (nextIdx t.capacity h) (nextIdx_lt _ _ hh) hr hs

/-- `insert` empties at most one cell's worth of the free count. -/
lemma count_set_ge (l : List ℤ) (i : ℕ) (v a : ℤ) :
    l.count a ≤ (l.set i v).count a + 1 := by
  induction l generalizing i with
  | nil => simp
  | cons x xs ih =>
    cases i with
    | zero =>
      simp only [List.set_cons_zero, List.count_cons]
      have := ih 0
      split_ifs <;> omega
    | succ i =>
      simp only [List.set_cons_succ, List.count_cons]
      have := ih i
      split_ifs <;> omega

lemma insertAux_count (key : List ℤ) (slot : ℕ) :
    ∀ fuel t h h' t', insertAux key slot fuel t h = some (h', t') →
      t.entries.count (-1) ≤ t'.entries.count (-1) + 1 := by
  intro fuel t h h' t' hins
  rcases insertAux_spec key slot fuel t h h' t' hins with ⟨rfl, _⟩ | ⟨_, rfl⟩
  · omega
  · rw [claimUpd]
    exact count_set_ge _ _ _ _

/-- A positive free count puts an empty cell on every probe path. -/
lemma empty_on_path (t : HashTable) (h : ℕ) (hh : h < 2 * t.capacity)
    (hlen : t.entries.length = 2 * t.capacity)
    (hcnt : 0 < t.entries.count (-1)) :
    ∃ k < 2 * t.capacity, t.entries.getD ((h + k) % (2 * t.capacity)) 0 = -1 := by
  have hmem : (-1 : ℤ) ∈ t.entries := List.count_pos_iff.mp hcnt
  obtain ⟨j, hj, hgetj⟩ := List.mem_iff_getElem.mp hmem
  rw [hlen] at hj
  have hgetDj : t.entries.getD j 0 = -1 := by
    rw [List.getD_eq_getElem?_getD, List.getElem?_eq_getElem (by omega), hgetj]
    rfl
  refine ⟨(j + 2 * t.capacity - h) % (2 * t.capacity), Nat.mod_lt _ (by omega), ?_⟩
  rw [Nat.add_mod, Nat.mod_mod_of_dvd, ← Nat.add_mod]
  · have : (h + (j + 2 * t.capacity - h)) = j + 2 * t.capacity := by omega
    rw [this, Nat.add_mod_right, Nat.mod_eq_of_lt hj]
    exact hgetDj
  · exact dvd_rfl

/-! ## Blur round refinement lemmas -/

lemma getD_eq_getElem {α : Type*} (l : List α) (n : ℕ) (d : α) (h : n < l.length) :
    l.getD n d = l[n] := by
  rw [List.getD_eq_getElem?_getD, List.getElem?_eq_getElem h]
  rfl

lemma npKey_eq_spec (pd : ℕ) (key : List ℤ) (color : ℕ) :
    npKey pd key color = npKeySpec pd key color := by
  rw [npKey, npKeySpec]
  rcases lt_or_le color pd with hc | hc
  · apply List.ext_getElem
    · simp
    · intro i h1 h2
      simp only [List.length_set, List.length_map, List.length_range] at h1
      rw [List.getElem_set]
      rw [List.getElem_map, List.getElem_range]
      split_ifs with hci
      · subst hci
        have hbase : ((List.range pd).map (fun i => key.getD i 0 + 1)).getD color 0 =
            key.getD color 0 + 1 := by
          rw [getD_eq_getElem _ _ _ (by simpa using hc), List.getElem_map, List.getElem_range]
        rw [hbase, List.getElem_map, List.getElem_range]
        rw [if_pos rfl]
      · rw [List.getElem_map, List.getElem_range]
        have hne : ¬ (i = color) := fun hcon => hci hcon.symm
        rw [if_neg hne]
        ring
  · rw [List.set_eq_of_length_le (by simpa using hc)]
    apply List.ext_getElem
    · simp
    · intro i h1 h2
      simp only [List.length_map, List.length_range] at h1
      rw [List.getElem_map, List.getElem_range, List.getElem_map, List.getElem_range]
      rw [if_neg (by omega)]
      ring

lemma nmKey_eq_spec (pd : ℕ) (key : List ℤ) (color : ℕ) :
    nmKey pd key color = nmKeySpec pd key color := by
  rw [nmKey, nmKeySpec]
  rcases lt_or_le color pd with hc | hc
  · apply List.ext_getElem
    · simp
    · intro i h1 h2
      simp only [List.length_set, List.length_map, List.length_range] at h1
      rw [List.getElem_set]
      rw [List.getElem_map, List.getElem_range]
      split_ifs with hci
      · subst hci
        have hbase : ((List.range pd).map (fun i => key.getD i 0 - 1)).getD color 0 =
            key.getD color 0 - 1 := by
          rw [getD_eq_getElem _ _ _ (by simpa using hc), List.getElem_map, List.getElem_range]
        rw [hbase, List.getElem_map, List.getElem_range]
        rw [if_pos rfl]
      · rw [List.getElem_map, List.getElem_range]
        have hne : ¬ (i = color) := fun hcon => hci hcon.symm
        rw [if_neg hne]
        ring
  · rw [List.set_eq_of_length_le (by simpa using hc)]
    apply List.ext_getElem
    · simp
    · intro i h1 h2
      simp only [List.length_map, List.length_range] at h1
      rw [List.getElem_map, List.getElem_range, List.getElem_map, List.getElem_range]
      rw [if_neg (by omega)]
      ring

lemma blurSlot_eq_spec (pd vd : ℕ) (color : ℕ) (t : HashTable) (idx : ℕ) :
    blurSlot pd vd color t idx = blurSlotSpec pd vd color t idx := by
  rw [blurSlot, blurSlotSpec, npKey_eq_spec, nmKey_eq_spec]
  rcases retrieveT t (npKeySpec pd (t.keys.getD idx []) color) with _ | offNp
  · rfl
  · rcases retrieveT t (nmKeySpec pd (t.keys.getD idx []) color) with _ | offNm
    · rfl
    · simp only [blurVal]

lemma blurCells_eq_spec (pd vd : ℕ) (mat : List MatEntry) (color : ℕ) (t : HashTable) :
    ∀ m out, blurCells pd vd mat color t m out = blurCellsSpec pd vd mat color t m out := by
  intro m
  induction m with
  | zero => intro out; rfl
  | succ m ih =>
    intro out
    rw [blurCells, blurCellsSpec, ih out]
    rcases blurCellsSpec pd vd mat color t m out with _ | out1
    · rfl
    · rw [blurSlot_eq_spec]

/-- The code's blur round coincides with the specification's description
of the round (neighbor keys, zero vectors for missing neighbors, the
`0.25/0.5/0.25` stencil, out-of-place output, and the final swap). -/
lemma blurRound_eq_spec (pd vd : ℕ) (mat : List MatEntry) (color : ℕ) (t : HashTable)
    (aux : List (List ℚ)) :
    blurRound pd vd mat color t aux = blurRoundSpec pd vd mat color t aux := by
  rw [blurRound, blurRoundSpec, blurCells_eq_spec]

lemma resid_window (pd : ℕ) (f : ℕ → ℚ) (i : ℕ) :
    -(((pd : ℚ) + 1) / 2) < resid pd f i ∧ resid pd f i ≤ ((pd : ℚ) + 1) / 2 := by
  have h := roundMult_resid (pd + 1) (by omega) (f i)
  have hc : (((pd + 1 : ℕ) : ℚ)) = (pd : ℚ) + 1 := by push_cast; ring
  rw [hc] at h
  exact ⟨h.1, h.2⟩

/-- If `j` precedes `i` in the rank order (strictly larger residual, or
equal residual and smaller index), then `j`'s rank is strictly smaller. -/
lemma rankP_lt_of_before (pd : ℕ) (f : ℕ → ℚ) (i j : ℕ)
    (hi : i < pd + 1) (hj : j < pd + 1)
    (h : resid pd f i < resid pd f j ∨ (resid pd f i = resid pd f j ∧ j < i)) :
    rankP pd f j < rankP pd f i := by
  have hcond : ∀ a b : ℕ,
      (resid pd f b < resid pd f a ∨ (resid pd f b = resid pd f a ∧ a < b)) ↔
      (f b - (rem0P pd f b : ℚ) < f a - (rem0P pd f a : ℚ) ∨
        (f b - (rem0P pd f b : ℚ) = f a - (rem0P pd f a : ℚ) ∧ a < b)) := by
    intro a b
    rw [resid, resid]
  set A := (Finset.range (pd + 1)).filter (fun k =>
    f j - (rem0P pd f j : ℚ) < f k - (rem0P pd f k : ℚ) ∨
    (f j - (rem0P pd f j : ℚ) = f k - (rem0P pd f k : ℚ) ∧ k < j)) with hA
  set B := (Finset.range (pd + 1)).filter (fun k =>
    f i - (rem0P pd f i : ℚ) < f k - (rem0P pd f k : ℚ) ∨
    (f i - (rem0P pd f i : ℚ) = f k - (rem0P pd f k : ℚ) ∧ k < i)) with hB
  have hjA : j ∉ A := by
    rw [hA, Finset.mem_filter]
    rintro ⟨-, hc | hc⟩
    · exact lt_irrefl _ hc
    · exact lt_irrefl _ hc.2
  have hjB : j ∈ B := by
    rw [hB, Finset.mem_filter]
    refine ⟨Finset.mem_range.mpr hj, ?_⟩
    rcases h with hlt | ⟨heq, hji⟩
    · exact Or.inl hlt
    · exact Or.inr ⟨heq, hji⟩
  have hAB : A ⊆ B := by
    intro k hk
    rw [hA, Finset.mem_filter] at hk
    rw [hB, Finset.mem_filter]
    refine ⟨hk.1, ?_⟩
    rw [resid, resid] at h
    rcases hk.2 with hk2 | hk2
    · rcases h with hlt | ⟨heq, hji⟩
      · exact Or.inl (by linarith)
      · exact Or.inl (by linarith)
    · rcases h with hlt | ⟨heq, hji⟩
      · exact Or.inl (by linarith [hk2.1])
      · exact Or.inr ⟨by linarith [hk2.1], by omega⟩
  have hins : insert j A ⊆ B := Finset.insert_subset hjB hAB
  have hcard : A.card + 1 ≤ B.card := by
    have h1 : (insert j A).card = A.card + 1 := Finset.card_insert_of_not_mem hjA
    have h2 : (insert j A).card ≤ B.card := Finset.card_le_card hins
    omega
  rw [rankP, rankP]
  rw [← hA, ← hB]
  omega

lemma resid_ge_of_rankP_lt (pd : ℕ) (f : ℕ → ℚ) (i j : ℕ)
    (hi : i < pd + 1) (hj : j < pd + 1)
    (h : rankP pd f i < rankP pd f j) : resid pd f j ≤ resid pd f i := by
  by_contra hcon
  push_neg at hcon
  have := rankP_lt_of_before pd f i j hi hj (Or.inl hcon)
  omega

lemma rankP_injOn (pd : ℕ) (f : ℕ → ℚ) (i j : ℕ)
    (hi : i < pd + 1) (hj : j < pd + 1) (h : rankP pd f i = rankP pd f j) : i = j := by
  by_contra hne
  rcases lt_trichotomy (resid pd f i) (resid pd f j) with hr | hr | hr
  · have := rankP_lt_of_before pd f i j hi hj (Or.inl hr)
    omega
  · rcases Nat.lt_or_ge i j with hij | hij
    · have := rankP_lt_of_before pd f j i hj hi (Or.inr ⟨hr.symm, hij⟩)
      omega
    · have hij' : j < i := by omega
      have := rankP_lt_of_before pd f i j hi hj (Or.inr ⟨hr, hij'⟩)
      omega
  · have := rankP_lt_of_before pd f j i hj hi (Or.inl hr)
    omega

lemma rankC_injOn (pd : ℕ) (f : ℕ → ℚ)
    (hS : ∑ i in Finset.range (pd + 1), f i = 0)
    (i j : ℕ) (hi : i < pd + 1) (hj : j < pd + 1)
    (h : rankC pd f i = rankC pd f j) : i = j := by
  have hV := sumV_abs_le pd f hS
  have hpi := rankP_le pd f i hi
  have hpj := rankP_le pd f j hj
  rw [rankC, rankC] at h
  split_ifs at h <;> exact rankP_injOn pd f i j hi hj (by omega)

lemma rankC_surj (pd : ℕ) (f : ℕ → ℚ)
    (hS : ∑ i in Finset.range (pd + 1), f i = 0)
    (v : ℤ) (hv0 : 0 ≤ v) (hvpd : v ≤ (pd : ℤ)) :
    ∃ i, i < pd + 1 ∧ rankC pd f i = v := by
  have himg : (Finset.range (pd + 1)).image (fun i => rankC pd f i) =
      Finset.Icc 0 ((pd : ℤ)) := by
    apply Finset.eq_of_subset_of_card_le
    · intro x hx
      rw [Finset.mem_image] at hx
      obtain ⟨i, hi, rfl⟩ := hx
      rw [Finset.mem_Icc]
      exact rankC_range pd f i (Finset.mem_range.mp hi) hS
    · rw [Int.card_Icc, Finset.card_image_of_injOn, Finset.card_range]
      · omega
      · intro a ha b hb hab
        exact rankC_injOn pd f hS a b (Finset.mem_range.mp ha) (Finset.mem_range.mp hb) hab
  have hvmem : v ∈ Finset.Icc 0 ((pd : ℤ)) := Finset.mem_Icc.mpr ⟨hv0, hvpd⟩
  rw [← himg, Finset.mem_image] at hvmem
  obtain ⟨i, hi, hri⟩ := hvmem
  exact ⟨i, Finset.mem_range.mp hi, hri⟩

/-- A strictly smaller corrected rank means a corrected residual at least
as large, and larger by at most `pd+1`. -/
lemma rankC_resid_pair (pd : ℕ) (f : ℕ → ℚ)
    (hS : ∑ i in Finset.range (pd + 1), f i = 0)
    (i j : ℕ) (hi : i < pd + 1) (hj : j < pd + 1)
    (h : rankC pd f i < rankC pd f j) :
    residC pd f j ≤ residC pd f i ∧ residC pd f i ≤ residC pd f j + ((pd : ℚ) + 1) := by
  have hV := sumV_abs_le pd f hS
  have hpi := rankP_le pd f i hi
  have hpj := rankP_le pd f j hj
  have hwi := resid_window pd f i
  have hwj := resid_window pd f j
  have hm : ∀ a b : ℕ, a < pd + 1 → b < pd + 1 → rankP pd f a < rankP pd f b →
      resid pd f b ≤ resid pd f a :=
    fun a b ha hb hab => resid_ge_of_rankP_lt pd f a b ha hb hab
  have hei : resid pd f i = f i - ((rem0P pd f i : ℤ) : ℚ) := rfl
  have hej : resid pd f j = f j - ((rem0P pd f j : ℤ) : ℚ) := rfl
  rw [rankC, rankC] at h
  rw [residC, residC, remC, remC]
  split_ifs at h ⊢ <;>
    first
      | (exfalso; omega)
      | (have hr : rankP pd f i < rankP pd f j := by omega
         have hres := hm i j hi hj hr
         constructor <;>
           (push_cast
            linarith [hres, hwi.1, hwi.2, hwj.1, hwj.2, hei, hej]))
      | (have hr : rankP pd f j < rankP pd f i := by omega
         have hres := hm j i hj hi hr
         constructor <;>
           (push_cast
            linarith [hres, hwi.1, hwi.2, hwj.1, hwj.2, hei, hej]))

lemma delta_eq_residC (pd : ℕ) (f : ℕ → ℚ) (i : ℕ) :
    delta pd f i = residC pd f i * (1 / ((pd : ℚ) + 1)) := rfl

lemma baryAux_eval (pd : ℕ) (f : ℕ → ℚ) :
    ∀ k idx, baryAux pd f k idx =
      ∑ i in Finset.range k,
        ((if idx = (pd : ℤ) - rankC pd f i then delta pd f i else 0)
          - (if idx = (pd : ℤ) + 1 - rankC pd f i then delta pd f i else 0)) := by
  intro k
  induction k with
  | zero =>
    intro idx
    simp only [baryAux, Finset.range_zero, Finset.sum_empty]
  | succ k ih =>
    intro idx
    rw [baryAux, ih, Finset.sum_range_succ]
    ring

/-- Pick out the unique coordinate with corrected rank `v`. -/
lemma sum_rankC_pick (pd : ℕ) (f : ℕ → ℚ)
    (hS : ∑ i in Finset.range (pd + 1), f i = 0)
    (v : ℤ) (g : ℕ → ℚ) (i0 : ℕ) (hi0 : i0 < pd + 1) (hv : rankC pd f i0 = v) :
    ∑ i in Finset.range (pd + 1), (if v = rankC pd f i then g i else 0) = g i0 := by
  rw [Finset.sum_eq_single i0]
  · rw [if_pos hv.symm]
  · intro b hb hbne
    rw [if_neg]
    intro hcon
    exact hbne (rankC_injOn pd f hS b i0 (Finset.mem_range.mp hb) hi0 (by omega))
  · intro hcon
    exact absurd (Finset.mem_range.mpr hi0) hcon

/-- No coordinate has a corrected rank outside `[0, pd]`. -/
lemma sum_rankC_none (pd : ℕ) (f : ℕ → ℚ)
    (hS : ∑ i in Finset.range (pd + 1), f i = 0)
    (v : ℤ) (g : ℕ → ℚ) (hv : v < 0 ∨ (pd : ℤ) < v) :
    ∑ i in Finset.range (pd + 1), (if v = rankC pd f i then g i else 0) = 0 := by
  apply Finset.sum_eq_zero
  intro i hi
  rw [if_neg]
  intro hcon
  have := rankC_range pd f i (Finset.mem_range.mp hi) hS
  omega

/-- The barycentric weights of `createLattice` are nonnegative. -/
lemma bary_nonneg (pd : ℕ) (f : ℕ → ℚ)
    (hS : ∑ i in Finset.range (pd + 1), f i = 0) :
    ∀ r, r < pd + 1 → 0 ≤ bary pd f r := by
  intro r hr
  have hs0 : (0 : ℚ) < (pd : ℚ) + 1 := by positivity
  have hsinv : (0 : ℚ) ≤ 1 / ((pd : ℚ) + 1) := by positivity
  have hone : ((pd : ℚ) + 1) * (1 / ((pd : ℚ) + 1)) = 1 :=
    mul_one_div_cancel hs0.ne'
  rcases Nat.eq_zero_or_pos r with rfl | hrpos
  · -- r = 0 : the weight is 1 + delta(rank pd) - delta(rank 0)
    obtain ⟨ipd, hipd, hrpd⟩ := rankC_surj pd f hS ((pd : ℤ)) (by positivity) le_rfl
    obtain ⟨i0, hi0, hr0⟩ := rankC_surj pd f hS 0 le_rfl (by positivity)
    rw [bary, if_pos rfl, baryAux_eval, baryAux_eval]
    rw [Finset.sum_sub_distrib, Finset.sum_sub_distrib]
    have e1 : ∑ i in Finset.range (pd + 1),
        (if (0 : ℤ) = (pd : ℤ) - rankC pd f i then delta pd f i else 0) = delta pd f ipd := by
      rw [Finset.sum_congr rfl
        (fun i _ => if_congr (by omega) rfl rfl :
          ∀ i ∈ Finset.range (pd + 1),
            (if (0 : ℤ) = (pd : ℤ) - rankC pd f i then delta pd f i else 0) =
            (if (pd : ℤ) = rankC pd f i then delta pd f i else 0))]
      exact sum_rankC_pick pd f hS ((pd : ℤ)) _ ipd hipd hrpd
    have e2 : ∑ i in Finset.range (pd + 1),
        (if (0 : ℤ) = (pd : ℤ) + 1 - rankC pd f i then delta pd f i else 0) = 0 := by
      rw [Finset.sum_congr rfl
        (fun i _ => if_congr (by omega) rfl rfl :
          ∀ i ∈ Finset.range (pd + 1),
            (if (0 : ℤ) = (pd : ℤ) + 1 - rankC pd f i then delta pd f i else 0) =
            (if (pd : ℤ) + 1 = rankC pd f i then delta pd f i else 0))]
      exact sum_rankC_none pd f hS ((pd : ℤ) + 1) _ (Or.inr (by omega))
    have e3 : ∑ i in Finset.range (pd + 1),
        (if ((pd : ℤ) + 1) = (pd : ℤ) - rankC pd f i then delta pd f i else 0) = 0 := by
      rw [Finset.sum_congr rfl
        (fun i _ => if_congr (by omega) rfl rfl :
          ∀ i ∈ Finset.range (pd + 1),
            (if ((pd : ℤ) + 1) = (pd : ℤ) - rankC pd f i then delta pd f i else 0) =
            (if (-1 : ℤ) = rankC pd f i then delta pd f i else 0))]
      exact sum_rankC_none pd f hS (-1) _ (Or.inl (by omega))
    have e4 : ∑ i in Finset.range (pd + 1),
        (if ((pd : ℤ) + 1) = (pd : ℤ) + 1 - rankC pd f i then delta pd f i else 0) =
        delta pd f i0 := by
      rw [Finset.sum_congr rfl
        (fun i _ => if_congr (by omega) rfl rfl :
          ∀ i ∈ Finset.range (pd + 1),
            (if ((pd : ℤ) + 1) = (pd : ℤ) + 1 - rankC pd f i then delta pd f i else 0) =
            (if (0 : ℤ) = rankC pd f i then delta pd f i else 0))]
      exact sum_rankC_pick pd f hS 0 _ i0 hi0 hr0
    rw [e1, e2, e3, e4]
    rcases Nat.eq_zero_or_pos pd with hpd0 | hpdpos
    · -- pd = 0: both picked coordinates coincide, the weight is 1
      have : ipd = i0 := rankC_injOn pd f hS ipd i0 hipd hi0 (by omega)
      rw [this]
      norm_num
    · -- pd >= 1: the two extreme residuals differ by at most pd+1
      have hpair := rankC_resid_pair pd f hS i0 ipd hi0 hipd (by omega)
      have hmul := mul_le_mul_of_nonneg_right hpair.2 hsinv
      rw [add_mul, hone] at hmul
      rw [delta_eq_residC, delta_eq_residC]
      linarith
  · -- 1 <= r <= pd
    rw [bary, if_neg (by omega), baryAux_eval, Finset.sum_sub_distrib]
    obtain ⟨i1, hi1, hv1⟩ := rankC_surj pd f hS ((pd : ℤ) - (r : ℤ)) (by omega) (by omega)
    obtain ⟨i2, hi2, hv2⟩ := rankC_surj pd f hS ((pd : ℤ) + 1 - (r : ℤ)) (by omega) (by omega)
    have e1 : ∑ i in Finset.range (pd + 1),
        (if ((r : ℕ) : ℤ) = (pd : ℤ) - rankC pd f i then delta pd f i else 0) =
        delta pd f i1 := by
      rw [Finset.sum_congr rfl
        (fun i _ => if_congr (by omega) rfl rfl :
          ∀ i ∈ Finset.range (pd + 1),
            (if ((r : ℕ) : ℤ) = (pd : ℤ) - rankC pd f i then delta pd f i else 0) =
            (if (pd : ℤ) - (r : ℤ) = rankC pd f i then delta pd f i else 0))]
      exact sum_rankC_pick pd f hS ((pd : ℤ) - (r : ℤ)) _ i1 hi1 hv1
    have e2 : ∑ i in Finset.range (pd + 1),
        (if ((r : ℕ) : ℤ) = (pd : ℤ) + 1 - rankC pd f i then delta pd f i else 0) =
        delta pd f i2 := by
      rw [Finset.sum_congr rfl
        (fun i _ => if_congr (by omega) rfl rfl :
          ∀ i ∈ Finset.range (pd + 1),
            (if ((r : ℕ) : ℤ) = (pd : ℤ) + 1 - rankC pd f i then delta pd f i else 0) =
            (if (pd : ℤ) + 1 - (r : ℤ) = rankC pd f i then delta pd f i else 0))]
      exact sum_rankC_pick pd f hS ((pd : ℤ) + 1 - (r : ℤ)) _ i2 hi2 hv2
    rw [e1, e2]
    have hpair := rankC_resid_pair pd f hS i1 i2 hi1 hi2 (by omega)
    have hmul := mul_le_mul_of_nonneg_right hpair.1 hsinv
    rw [delta_eq_residC, delta_eq_residC]
    linarith

/-! ## Further list and probing helpers -/

lemma getD_append_left {α : Type*} (l1 l2 : List α) (n : ℕ) (d : α) (h : n < l1.length) :
    (l1 ++ l2).getD n d = l1.getD n d := by
  rw [List.getD_eq_getElem?_getD, List.getElem?_append, if_pos h, ← List.getD_eq_getElem?_getD]

lemma getD_concat_length {α : Type*} (l1 : List α) (x d : α) :
    (l1 ++ [x]).getD l1.length d = x := by
  rw [List.getD_eq_getElem?_getD, List.getElem?_append_right le_rfl]
  simp

lemma getD_replicate {α : Type*} (n : ℕ) (v d : α) (i : ℕ) (h : i < n) :
    (List.replicate n v).getD i d = v := by
  rw [List.getD_eq_getElem?_getD, List.getElem?_replicate, if_pos h]
  rfl

lemma set_getD_self {α : Type*} (l : List α) (n : ℕ) (d : α) (h : n < l.length) :
    l.set n (l.getD n d) = l := by
  apply List.ext_getElem
  · simp
  · intro i h1 h2
    rw [List.getElem_set]
    split_ifs with he
    · subst he
      exact getD_eq_getElem _ _ _ h
    · rfl

/-- A successful nonnegative `retrieve` result is the content of some
entry cell. -/
lemma retrieveAux_mem (t : HashTable) (key : List ℤ) (x : ℤ)
    (hlen : t.entries.length = 2 * t.capacity) :
    ∀ fuel h, h < 2 * t.capacity → retrieveAux t key fuel h = some x → 0 ≤ x →
      x ∈ t.entries := by
  intro fuel
  induction fuel with
  | zero =>
    intro h hh hr
    simp [retrieveAux] at hr
  | succ fuel ih =>
    intro h hh hr hx
    rw [retrieveAux] at hr
    by_cases h1 : t.entries.getD h 0 = -1
    · rw [if_pos h1] at hr
      simp only [Option.some.injEq] at hr
      omega
    · rw [if_neg h1] at hr
      by_cases h2 : keyAt t (t.entries.getD h 0) = key
      · rw [if_pos h2] at hr
        simp only [Option.some.injEq] at hr
        rw [← hr]
        exact getD_mem _ _ _ (by omega)
      · rw [if_neg h2] at hr
        exact ih (nextIdx t.capacity h) (nextIdx_lt _ _ hh) hr hx

/-- `retrieve` always resolves while the table has an empty cell. -/
lemma retrieveT_total (t : HashTable) (key : List ℤ)
    (hlen : t.entries.length = 2 * t.capacity) (hcnt : 0 < t.entries.count (-1))
    (hcap : 0 < t.capacity) : (retrieveT t key).isSome := by
  have hh0 : modHash t.capacity (hashK key) < 2 * t.capacity := Nat.mod_lt _ (by omega)
  obtain ⟨k, hk, hemp⟩ := empty_on_path t _ hh0 hlen hcnt
  exact retrieveAux_isSome_of_empty t key k (2 * t.capacity) _ hh0 hk hemp

/-- `insert` always resolves while the table has an empty cell. -/
lemma insertT_total (t : HashTable) (key : List ℤ) (slot : ℕ)
    (hlen : t.entries.length = 2 * t.capacity) (hcnt : 0 < t.entries.count (-1))
    (hcap : 0 < t.capacity) : (insertT t key slot).isSome := by
  have hh0 : modHash t.capacity (hashK key) < 2 * t.capacity := Nat.mod_lt _ (by omega)
  obtain ⟨k, hk, hemp⟩ := empty_on_path t _ hh0 hlen hcnt
  exact insertAux_isSome_of_empty key slot t k (2 * t.capacity) _ hh0 hk hemp

/-! ## Congruence lemmas: the embedder reads its input only below `pd+1` -/

lemma smD_congr (pos1 pos2 sc : ℕ → ℚ) (pd : ℕ)
    (h : ∀ i, i < pd → pos1 i = pos2 i) :
    ∀ k, k ≤ pd → smD pos1 sc pd k = smD pos2 sc pd k := by
  intro k
  induction k with
  | zero => intro _; rfl
  | succ k ih =>
    intro hk
    rw [smD, smD, ih (by omega), cf, cf, h (pd - k - 1) (by omega)]

lemma elev_congr (pos1 pos2 sc : ℕ → ℚ) (pd : ℕ)
    (h : ∀ i, i < pd → pos1 i = pos2 i) :
    ∀ i, i ≤ pd → elev pos1 sc pd i = elev pos2 sc pd i := by
  intro i hi
  rw [elev, elev]
  split_ifs with h0
  · exact smD_congr pos1 pos2 sc pd h pd le_rfl
  · rw [smD_congr pos1 pos2 sc pd h (pd - i) (by omega), cf, cf, h (i - 1) (by omega)]

lemma rem0P_congr (pd : ℕ) (f1 f2 : ℕ → ℚ) (h : ∀ i, i < pd + 1 → f1 i = f2 i)
    (i : ℕ) (hi : i < pd + 1) : rem0P pd f1 i = rem0P pd f2 i := by
  rw [rem0P, rem0P, h i hi]

lemma sumV_congr (pd : ℕ) (f1 f2 : ℕ → ℚ) (h : ∀ i, i < pd + 1 → f1 i = f2 i) :
    sumV pd f1 = sumV pd f2 := by
  rw [sumV, sumV, sumRem, sumRem]
  rw [Finset.sum_congr rfl (fun i hi => rem0P_congr pd f1 f2 h i (Finset.mem_range.mp hi))]

lemma rankP_congr (pd : ℕ) (f1 f2 : ℕ → ℚ) (h : ∀ i, i < pd + 1 → f1 i = f2 i)
    (i : ℕ) (hi : i < pd + 1) : rankP pd f1 i = rankP pd f2 i := by
  rw [rankP, rankP]
  congr 1
  apply Finset.filter_congr
  intro j hj
  rw [Finset.mem_range] at hj
  rw [h i hi, h j hj, rem0P_congr pd f1 f2 h i hi, rem0P_congr pd f1 f2 h j hj]

lemma remC_congr (pd : ℕ) (f1 f2 : ℕ → ℚ) (h : ∀ i, i < pd + 1 → f1 i = f2 i)
    (i : ℕ) (hi : i < pd + 1) : remC pd f1 i = remC pd f2 i := by
  rw [remC, remC, sumV_congr pd f1 f2 h, rankP_congr pd f1 f2 h i hi,
    rem0P_congr pd f1 f2 h i hi]

lemma rankC_congr (pd : ℕ) (f1 f2 : ℕ → ℚ) (h : ∀ i, i < pd + 1 → f1 i = f2 i)
    (i : ℕ) (hi : i < pd + 1) : rankC pd f1 i = rankC pd f2 i := by
  rw [rankC, rankC, sumV_congr pd f1 f2 h, rankP_congr pd f1 f2 h i hi]

lemma delta_congr (pd : ℕ) (f1 f2 : ℕ → ℚ) (h : ∀ i, i < pd + 1 → f1 i = f2 i)
    (i : ℕ) (hi : i < pd + 1) : delta pd f1 i = delta pd f2 i := by
  rw [delta, delta, h i hi, remC_congr pd f1 f2 h i hi]

lemma baryAux_congr (pd : ℕ) (f1 f2 : ℕ → ℚ) (h : ∀ i, i < pd + 1 → f1 i = f2 i) :
    ∀ k, k ≤ pd + 1 → ∀ idx, baryAux pd f1 k idx = baryAux pd f2 k idx := by
  intro k
  induction k with
  | zero => intro _ idx; rfl
  | succ k ih =>
    intro hk idx
    rw [baryAux, baryAux, ih (by omega), rankC_congr pd f1 f2 h k (by omega),
      delta_congr pd f1 f2 h k (by omega)]

lemma bary_congr (pd : ℕ) (f1 f2 : ℕ → ℚ) (h : ∀ i, i < pd + 1 → f1 i = f2 i)
    (r : ℕ) : bary pd f1 r = bary pd f2 r := by
  rw [bary, bary]
  split_ifs with h0
  · rw [baryAux_congr pd f1 f2 h (pd + 1) le_rfl, baryAux_congr pd f1 f2 h (pd + 1) le_rfl]
  · rw [baryAux_congr pd f1 f2 h (pd + 1) le_rfl]

lemma latKey_congr (pd : ℕ) (f1 f2 : ℕ → ℚ) (h : ∀ i, i < pd + 1 → f1 i = f2 i)
    (r : ℕ) : latKey pd f1 r = latKey pd f2 r := by
  rw [latKey, latKey]
  apply List.map_congr_left
  intro i hi
  rw [List.mem_range] at hi
  rw [remC_congr pd f1 f2 h i (by omega), rankC_congr pd f1 f2 h i (by omega)]

/-- Under a uniform position buffer, each row's key and weight equal
those of sample `0`'s corresponding corner. -/
lemma row_uniform (pd : ℕ) (positions sc : ℕ → ℚ) (n : ℕ)
    (hpos : ∀ σ, σ < n → ∀ i, i < pd → positions (σ * pd + i) = positions i)
    (q : ℕ) (hq : q < n * (pd + 1)) :
    rowKey pd positions sc q = latKey pd (elev (posOf positions pd 0) sc pd) (q % (pd + 1)) ∧
    rowW pd positions sc q = bary pd (elev (posOf positions pd 0) sc pd) (q % (pd + 1)) := by
  have hσ : q / (pd + 1) < n := by
    apply Nat.div_lt_of_lt_mul
    rw [Nat.mul_comm]
    exact hq
  have hcong : ∀ i, i < pd + 1 →
      elev (posOf positions pd (q / (pd + 1))) sc pd i =
      elev (posOf positions pd 0) sc pd i := by
    intro i hi
    apply elev_congr
    · intro k hk
      rw [posOf, posOf]
      have h1 := hpos (q / (pd + 1)) hσ k hk
      rw [h1]
      simp
    · omega
  constructor
  · rw [rowKey]
    exact latKey_congr pd _ _ hcong (q % (pd + 1))
  · rw [rowW]
    exact bary_congr pd _ _ hcong (q % (pd + 1))

lemma createInv_zero (pd vd n : ℕ) (positions sc : ℕ → ℚ) :
    CreateInv pd vd n positions sc 0 [] (initTable pd vd n) := by
  constructor
  · rfl
  · simp [initTable]
  · simp [initTable]
  · rfl
  · intro x hx
    rw [initTable] at hx
    simp only [List.mem_replicate] at hx
    constructor
    · omega
    · omega
  · rw [initTable]
    simp
  · rfl
  · intro q hq
    omega
  · intro p hp hpos
    rw [initTable] at hpos
    rw [getD_replicate _ _ _ _ (by simpa using hp)] at hpos
    omega
  · intro s hs
    omega

lemma createInv_step (pd vd n : ℕ) (positions sc : ℕ → ℚ) (m : ℕ)
    (hm : m < n * (pd + 1)) (mat : List MatEntry) (t : HashTable)
    (inv : CreateInv pd vd n positions sc m mat t) :
    ∃ (h2 : ℕ) (t2 : HashTable),
      insertT t (rowKey pd positions sc m) m = some (h2, t2) ∧
      CreateInv pd vd n positions sc (m + 1)
        (mat ++ [⟨((h2 : ℕ) : ℤ), rowW pd positions sc m⟩]) t2 := by
  have hcap0 : 0 < t.capacity := by rw [inv.hcap]; omega
  have hlen2 : t.entries.length = 2 * t.capacity := by rw [inv.hcap]; exact inv.hlen
  have hcnt0 : 0 < t.entries.count (-1) := by
    have := inv.hcnt
    omega
  have hsome := insertT_total t (rowKey pd positions sc m) m hlen2 hcnt0 hcap0
  rw [Option.isSome_iff_exists] at hsome
  obtain ⟨⟨h2, t2⟩, hins0⟩ := hsome
  refine ⟨h2, t2, hins0, ?_⟩
  have hwf' : ∀ x ∈ t.entries, -1 ≤ x := fun x hx => (inv.hwf x hx).1
  have hfresh : ((m : ℤ)) ∉ t.entries := by
    intro hmem
    have := (inv.hwf _ hmem).2
    omega
  have hslot : m < t.keys.length := by rw [inv.hklen]; omega
  have hins := hins0
  rw [insertT] at hins
  have hh0 : modHash t.capacity (hashK (rowKey pd positions sc m)) < 2 * t.capacity :=
    Nat.mod_lt _ (by omega)
  have hidx : h2 < 2 * t.capacity := insertAux_idx_lt _ _ _ _ _ _ _ hins hh0
  have hidx' : h2 < 2 * (n * (pd + 1)) := by rw [← inv.hcap]; exact hidx
  have hcapEq : t2.capacity = t.capacity := insertAux_capacity _ _ _ _ _ _ _ hins
  have hretr := retrieveAux_after_insert _ _ _ _ _ _ _ hins hwf' hfresh hslot hlen2 hh0
  have hL : t.entries.length = 2 * (n * (pd + 1)) := inv.hlen
  rcases insertAux_spec _ _ _ _ _ _ _ hins with ⟨heq, hne1, _hne2, hkey⟩ | ⟨hemp, heq⟩
  · -- the key was already present at probe index h2
    rw [heq]
    have hmem2 : t.entries.getD h2 0 ∈ t.entries := getD_mem _ _ _ (by omega)
    have hge2 : 0 ≤ t.entries.getD h2 0 := by
      have := (inv.hwf _ hmem2).1
      omega
    constructor
    · exact inv.hcap
    · exact inv.hlen
    · exact inv.hklen
    · exact inv.hvals
    · intro x hx
      have := inv.hwf x hx
      constructor
      · exact this.1
      · omega
    · have := inv.hcnt
      omega
    · rw [List.length_append, inv.hmlen]
      rfl
    · intro q hq
      rcases Nat.lt_or_ge q m with hqm | hqm
      · obtain ⟨h, hhlt, hmat, hpos, hkeyq⟩ := inv.hrow q hqm
        refine ⟨h, hhlt, ?_, hpos, hkeyq⟩
        rw [getD_append_left _ _ _ _ (by rw [inv.hmlen]; omega)]
        exact hmat
      · have hqe : q = m := by omega
        subst hqe
        refine ⟨h2, hidx', ?_, hge2, hkey⟩
        have := getD_concat_length mat (⟨((h2 : ℕ) : ℤ), rowW pd positions sc q⟩ : MatEntry)
          (⟨-1, 0⟩ : MatEntry)
        rw [inv.hmlen] at this
        exact this
    · exact inv.hclean
    · intro s hs hsmem
      rcases Nat.lt_or_ge s m with hsm | hsm
      · have := inv.howner s hsm hsmem
        rw [getD_append_left _ _ _ _ (by rw [inv.hmlen]; omega)]
        exact this
      · have hse : s = m := by omega
        subst hse
        exact absurd hsmem hfresh
  · -- a fresh cell h2 was claimed for slot m
    subst heq
    have hglen : (claimUpd t h2 m (rowKey pd positions sc m)).entries.length =
        t.entries.length := by
      rw [claimUpd]
      exact List.length_set t.entries _ _
    have hnewget : (claimUpd t h2 m (rowKey pd positions sc m)).entries.getD h2 0 =
        ((m : ℤ)) := by
      rw [claimUpd]
      exact getD_set_self _ _ _ _ (by omega)
    have hnewkey : keyAt (claimUpd t h2 m (rowKey pd positions sc m)) ((m : ℤ)) =
        rowKey pd positions sc m := by
      rw [keyAt, claimUpd]
      simp only [Int.toNat_natCast]
      exact getD_set_self _ _ _ _ hslot
    have holdget : ∀ p : ℕ, p ≠ h2 →
        (claimUpd t h2 m (rowKey pd positions sc m)).entries.getD p 0 =
        t.entries.getD p 0 := by
      intro p hp
      rw [claimUpd]
      exact getD_set_other _ _ _ _ _ (fun hc => hp hc.symm)
    have holdkey : ∀ s : ℤ, 0 ≤ s → s ∈ t.entries →
        keyAt (claimUpd t h2 m (rowKey pd positions sc m)) s = keyAt t s := by
      intro s hs0 hsmem
      rw [keyAt, keyAt, claimUpd]
      apply getD_set_other
      intro hc
      apply hfresh
      have : s = ((m : ℤ)) := by omega
      rw [← this]
      exact hsmem
    constructor
    · rw [claimUpd]; exact inv.hcap
    · rw [hglen]; exact inv.hlen
    · rw [claimUpd]
      simp only [List.length_set]
      exact inv.hklen
    · rw [claimUpd]; exact inv.hvals
    · intro x hx
      rw [claimUpd] at hx
      simp only at hx
      rcases List.mem_or_eq_of_mem_set hx with hold | hnew
      · have := inv.hwf x hold
        exact ⟨this.1, by omega⟩
      · subst hnew
        constructor
        · omega
        · omega
    · have hc1 := insertAux_count _ _ _ _ _ _ _ hins
      have := inv.hcnt
      omega
    · rw [List.length_append, inv.hmlen]
      rfl
    · intro q hq
      rcases Nat.lt_or_ge q m with hqm | hqm
      · obtain ⟨h, hhlt, hmat, hpos, hkeyq⟩ := inv.hrow q hqm
        have hhn : h ≠ h2 := by
          intro hc
          rw [hc] at hpos
          omega
        refine ⟨h, hhlt, ?_, ?_, ?_⟩
        · rw [getD_append_left _ _ _ _ (by rw [inv.hmlen]; omega)]
          exact hmat
        · rw [holdget h hhn]
          exact hpos
        · rw [holdget h hhn]
          rw [holdkey _ hpos (getD_mem _ _ _ (by omega))]
          exact hkeyq
      · have hqe : q = m := by omega
        subst hqe
        refine ⟨h2, hidx', ?_, ?_, ?_⟩
        · have := getD_concat_length mat (⟨((h2 : ℕ) : ℤ), rowW pd positions sc q⟩ : MatEntry)
            (⟨-1, 0⟩ : MatEntry)
          rw [inv.hmlen] at this
          exact this
        · rw [hnewget]
          positivity
        · rw [hnewget, hnewkey]
    · intro p hp hpos
      by_cases hph : p = h2
      · rw [hph]
        rw [hnewget, hnewkey]
        have : retrieveT (claimUpd t h2 m (rowKey pd positions sc m))
            (rowKey pd positions sc m) =
            some ((claimUpd t h2 m (rowKey pd positions sc m)).entries.getD h2 0) := by
          rw [retrieveT, hcapEq]
          exact hretr
        rw [hnewget] at this
        exact this
      · rw [holdget p hph] at hpos ⊢
        have hpmem : t.entries.getD p 0 ∈ t.entries := getD_mem _ _ _ (by omega)
        rw [holdkey _ hpos hpmem]
        have hold := inv.hclean p hp hpos
        rw [retrieveT] at hold ⊢
        rw [hcapEq]
        rw [claimUpd]
        exact retrieveAux_claimUpd t h2 m (rowKey pd positions sc m)
          (keyAt t (t.entries.getD p 0)) (t.entries.getD p 0) hemp hwf' hfresh hlen2
          (2 * t.capacity) _ (Nat.mod_lt _ (by omega)) hold hpos
    · intro s hs hsmem
      rw [claimUpd] at hsmem
      simp only at hsmem
      rcases Nat.lt_or_ge s m with hsm | hsm
      · rcases List.mem_or_eq_of_mem_set hsmem with hold | hnew
        · have hcell := inv.howner s hsm hold
          have hcellne : (mat.getD s ⟨-1, 0⟩).index.toNat ≠ h2 := by
            intro hc
            rw [hc] at hcell
            omega
          rw [getD_append_left _ _ _ _ (by rw [inv.hmlen]; omega)]
          rw [holdget _ hcellne]
          exact hcell
        · exfalso
          have : s = m := by omega
          omega
      · have hse : s = m := by omega
        subst hse
        have hms : (mat ++ [(⟨((h2 : ℕ) : ℤ), rowW pd positions sc s⟩ : MatEntry)]).getD s
            ⟨-1, 0⟩ = ⟨((h2 : ℕ) : ℤ), rowW pd positions sc s⟩ := by
          have := getD_concat_length mat (⟨((h2 : ℕ) : ℤ), rowW pd positions sc s⟩ : MatEntry)
            (⟨-1, 0⟩ : MatEntry)
          rw [inv.hmlen] at this
          exact this
        rw [hms]
        simp only [Int.toNat_natCast]
        exact hnewget

lemma createRows_inv (pd vd n : ℕ) (positions sc : ℕ → ℚ) :
    ∀ m, m ≤ n * (pd + 1) →
      ∃ mat t, createRows pd positions sc m (initTable pd vd n) = some (mat, t) ∧
        CreateInv pd vd n positions sc m mat t := by
  intro m
  induction m with
  | zero =>
    intro _
    exact ⟨[], initTable pd vd n, rfl, createInv_zero pd vd n positions sc⟩
  | succ m ih =>
    intro hm
    obtain ⟨mat, t, hcr, inv⟩ := ih (by omega)
    obtain ⟨h2, t2, hins, inv2⟩ := createInv_step pd vd n positions sc m (by omega) mat t inv
    refine ⟨_, t2, ?_, inv2⟩
    rw [createRows, hcr]
    simp only [hins]

/-! ## The clean phase is a no-op on a table whose occupied cells already
retrieve themselves -/

lemma cleanSeq_noop (t : HashTable) :
    ∀ L, L ≤ t.entries.length →
      (∀ p, p < L → 0 ≤ t.entries.getD p 0 →
        retrieveT t (keyAt t (t.entries.getD p 0)) = some (t.entries.getD p 0)) →
      cleanSeq L t = some t := by
  intro L
  induction L with
  | zero => intro _ _; rfl
  | succ p ih =>
    intro hL hcl
    rw [cleanSeq, ih (by omega) (fun q hq => hcl q (by omega))]
    simp only
    by_cases hpos : 0 ≤ t.entries.getD p 0
    · rw [if_pos hpos, hcl p (by omega) hpos]
      simp only
      rw [set_getD_self t.entries p 0 (by omega)]
    · rw [if_neg hpos]

/-! ## Splat/blur helper lemmas -/

lemma getD_range_map {α : Type*} (g : ℕ → α) (n j : ℕ) (d : α) (h : j < n) :
    ((List.range n).map g).getD j d = g j := by
  have hl : j < ((List.range n).map g).length := by simp [h]
  rw [getD_eq_getElem _ _ _ hl]
  simp

lemma getD_zipWith_add (a b : List ℚ) (j : ℕ) (h1 : j < a.length) (h2 : j < b.length) :
    (List.zipWith (· + ·) a b).getD j 0 = a.getD j 0 + b.getD j 0 := by
  have hl : j < (List.zipWith (· + ·) a b).length := by
    rw [List.length_zipWith]; omega
  rw [getD_eq_getElem _ _ _ hl, getD_eq_getElem _ _ _ h1, getD_eq_getElem _ _ _ h2]
  exact List.getElem_zipWith

lemma splatContrib_length (pd vd : ℕ) (inputs : ℕ → ℚ) (m : ℕ) (w : ℚ) (hvd : 1 ≤ vd) :
    (splatContrib pd vd inputs m w).length = vd := by
  rw [splatContrib]
  simp only [List.length_append, List.length_map, List.length_range, List.length_cons,
    List.length_nil]
  omega

lemma splatContrib_last (pd vd : ℕ) (inputs : ℕ → ℚ) (m : ℕ) (w : ℚ) :
    (splatContrib pd vd inputs m w).getD (vd - 1) 0 = w := by
  rw [splatContrib]
  have h := getD_concat_length ((List.range (vd - 1)).map
    (fun j => inputs ((m / (pd + 1)) * (vd - 1) + j) * w)) w (0 : ℚ)
  simpa using h

lemma splatContrib_val (pd vd : ℕ) (inputs : ℕ → ℚ) (m : ℕ) (w : ℚ) (j : ℕ)
    (hj : j < vd - 1) :
    (splatContrib pd vd inputs m w).getD j 0 =
      inputs ((m / (pd + 1)) * (vd - 1) + j) * w := by
  rw [splatContrib, getD_append_left _ _ _ _ (by simp [hj]), getD_range_map _ _ _ _ hj]

lemma rowW_nonneg (pd : ℕ) (positions sc : ℕ → ℚ) (m : ℕ) :
    0 ≤ rowW pd positions sc m := by
  rw [rowW]
  exact bary_nonneg pd _ (elev_sum_eq_zero _ _ _) (m % (pd + 1)) (Nat.mod_lt _ (by omega))

lemma rowW_decomp (pd : ℕ) (positions sc : ℕ → ℚ) (idx i : ℕ) (hi : i < pd + 1) :
    rowW pd positions sc (idx * (pd + 1) + i) =
      bary pd (elev (posOf positions pd idx) sc pd) i := by
  have h1 : (idx * (pd + 1) + i) / (pd + 1) = idx := by
    rw [Nat.add_comm, Nat.add_mul_div_right _ _ (by omega : 0 < pd + 1),
      Nat.div_eq_of_lt hi]
    omega
  have h2 : (idx * (pd + 1) + i) % (pd + 1) = i := by
    rw [Nat.add_comm, Nat.add_mul_mod_self_right, Nat.mod_eq_of_lt hi]
  rw [rowW, h1, h2]

lemma exists_bary_ge (pd : ℕ) (f : ℕ → ℚ)
    (hS : ∑ i in Finset.range (pd + 1), f i = 0) :
    ∃ r, r < pd + 1 ∧ 1 / ((pd : ℚ) + 1) ≤ bary pd f r := by
  by_contra hc
  push_neg at hc
  have hsum := bary_sum pd f hS
  have hlt : ∑ r in Finset.range (pd + 1), bary pd f r <
      ∑ r in Finset.range (pd + 1), 1 / ((pd : ℚ) + 1) := by
    apply Finset.sum_lt_sum_of_nonempty
    · exact Finset.nonempty_range_iff.mpr (by omega)
    · intro i hi
      exact hc i (Finset.mem_range.mp hi)
  rw [hsum, Finset.sum_const, Finset.card_range, nsmul_eq_mul] at hlt
  have hne : ((pd : ℚ) + 1) ≠ 0 := by positivity
  have hval : ((pd + 1 : ℕ) : ℚ) * (1 / ((pd : ℚ) + 1)) = 1 := by
    push_cast
    field_simp
  rw [hval] at hlt
  exact lt_irrefl _ hlt

lemma getD_replicate_self {α : Type*} (n j : ℕ) (a : α) :
    (List.replicate n a).getD j a = a := by
  rcases Nat.lt_or_ge j n with h | h
  · exact getD_replicate n a a j h
  · exact List.getD_eq_default _ _ (by simpa using h)

lemma splatInv_zero (pd vd : ℕ) (inputs positions sc : ℕ → ℚ)
    (mat0 : List MatEntry) (t0 : HashTable) (c0 : ℕ)
    (hvals : t0.values = List.replicate c0 (List.replicate vd 0)) :
    SplatInv pd vd inputs positions sc mat0 t0 0 mat0 t0 := by
  have hzero : ∀ s j : ℕ, ((t0.values.getD s []).getD j 0 : ℚ) = 0 := by
    intro s j
    rw [hvals]
    rcases Nat.lt_or_ge s c0 with hs | hs
    · rw [getD_replicate _ _ _ _ hs, getD_replicate_self]
    · have hnil : (List.replicate c0 (List.replicate vd (0 : ℚ))).getD s [] = [] :=
        List.getD_eq_default _ _ (by simpa using hs)
      rw [hnil]
      rfl
  constructor
  · rfl
  · rfl
  · rfl
  · rfl
  · rfl
  · intro l hl
    rw [hvals] at hl
    rw [List.eq_of_mem_replicate hl]
    exact List.length_replicate _ _
  · intro s j _
    rw [hzero, hzero, mul_zero]
  · intro s
    simp only [massAt]
    rw [hzero]
  · intro m _
    rfl
  · intro m hm
    omega

lemma splatInv_step (pd vd : ℕ) (inputs positions sc : ℕ → ℚ)
    (mat0 : List MatEntry) (t0 : HashTable) (M : ℕ) (mat : List MatEntry) (t : HashTable)
    (hvd : 1 ≤ vd)
    (inv : SplatInv pd vd inputs positions sc mat0 t0 M mat t)
    (hM : M < mat0.length)
    (h : ℕ)
    (hm0 : mat0.getD M ⟨-1, 0⟩ = ⟨((h : ℕ) : ℤ), rowW pd positions sc M⟩)
    (hslt : (t0.entries.getD h 0).toNat < t0.values.length)
    (hinM : ∀ j, j < vd - 1 → inputs ((M / (pd + 1)) * (vd - 1) + j) = inputs j) :
    SplatInv pd vd inputs positions sc mat0 t0 (M + 1)
      (splatRow pd vd inputs M (mat, t)).1 (splatRow pd vd inputs M (mat, t)).2 := by
  have hmatM : mat.getD M ⟨-1, 0⟩ = ⟨((h : ℕ) : ℤ), rowW pd positions sc M⟩ := by
    rw [inv.hpend M le_rfl, hm0]
  have hsplat : splatRow pd vd inputs M (mat, t) =
      (mat.set M ⟨t0.entries.getD h 0, rowW pd positions sc M⟩,
       valsUpd t (t.values.set (t0.entries.getD h 0).toNat
          ((t.values.getD (t0.entries.getD h 0).toNat []).zipWith (· + ·)
            (splatContrib pd vd inputs M (rowW pd positions sc M))))) := by
    simp only [splatRow, valsUpd, hmatM, Int.toNat_natCast, inv.hent]
  rw [hsplat]
  have hsl : (t0.entries.getD h 0).toNat < t.values.length := by
    rw [inv.hvlen]; exact hslt
  have hol : (t.values.getD (t0.entries.getD h 0).toNat []).length = vd :=
    inv.hvd _ (getD_mem _ _ _ hsl)
  have hcl : (splatContrib pd vd inputs M (rowW pd positions sc M)).length = vd :=
    splatContrib_length pd vd inputs M _ hvd
  have hwnn : 0 ≤ rowW pd positions sc M := rowW_nonneg pd positions sc M
  have hmono : ∀ s, massAt vd t.values s ≤
      massAt vd (t.values.set (t0.entries.getD h 0).toNat
        ((t.values.getD (t0.entries.getD h 0).toNat []).zipWith (· + ·)
          (splatContrib pd vd inputs M (rowW pd positions sc M)))) s := by
    intro s
    by_cases hs : s = (t0.entries.getD h 0).toNat
    · rw [hs]
      simp only [massAt]
      rw [getD_set_self _ _ _ _ hsl,
        getD_zipWith_add _ _ _ (by omega) (by omega), splatContrib_last]
      linarith
    · simp only [massAt]
      rw [getD_set_other _ _ _ _ _ (Ne.symm hs)]
  constructor
  · exact inv.hcap
  · exact inv.hent
  · exact inv.hkeys
  · dsimp only [valsUpd]
    rw [List.length_set]
    exact inv.hmlen
  · dsimp only [valsUpd]
    rw [List.length_set]
    exact inv.hvlen
  · dsimp only [valsUpd]
    intro l hl
    rcases List.mem_or_eq_of_mem_set hl with hold | hnew
    · exact inv.hvd l hold
    · rw [hnew, List.length_zipWith, hol, hcl]
      omega
  · dsimp only [valsUpd]
    simp only [propVals]
    intro s j hj
    by_cases hs : s = (t0.entries.getD h 0).toNat
    · rw [hs]
      rw [getD_set_self _ _ _ _ hsl,
        getD_zipWith_add _ _ j (by omega) (by omega),
        getD_zipWith_add _ _ (vd - 1) (by omega) (by omega),
        splatContrib_val _ _ _ _ _ _ hj, splatContrib_last, hinM j hj]
      have hp := inv.hprop (t0.entries.getD h 0).toNat j hj
      rw [hp]
      ring
    · rw [getD_set_other _ _ _ _ _ (Ne.symm hs)]
      exact inv.hprop s j hj
  · dsimp only [valsUpd]
    intro s
    exact le_trans (inv.hmass0 s) (hmono s)
  · dsimp only [valsUpd]
    intro m hm
    rw [getD_set_other _ _ _ _ _ (by omega : M ≠ m)]
    exact inv.hpend m (by omega)
  · dsimp only [valsUpd]
    intro m hm
    rcases Nat.lt_or_ge m M with hmM | hmM
    · obtain ⟨hfst, hsnd⟩ := inv.hdone m hmM
      constructor
      · rw [getD_set_other _ _ _ _ _ (by omega : M ≠ m)]
        exact hfst
      · exact le_trans hsnd (hmono _)
    · have hme : m = M := by omega
      rw [hme]
      constructor
      · rw [getD_set_self _ _ _ _ (by rw [inv.hmlen]; exact hM), hm0]
        simp [Int.toNat_natCast]
      · rw [hm0]
        simp only [Int.toNat_natCast]
        simp only [massAt]
        rw [getD_set_self _ _ _ _ hsl,
          getD_zipWith_add _ _ _ (by omega) (by omega), splatContrib_last]
        have hm0' := inv.hmass0 (t0.entries.getD h 0).toNat
        simp only [massAt] at hm0'
        linarith

lemma splatSeq_inv_fold (pd vd : ℕ) (inputs positions sc : ℕ → ℚ)
    (mat0 : List MatEntry) (t0 : HashTable) (hvd : 1 ≤ vd)
    (hrows : ∀ m, m < mat0.length → ∃ h : ℕ,
      mat0.getD m ⟨-1, 0⟩ = ⟨((h : ℕ) : ℤ), rowW pd positions sc m⟩ ∧
      (t0.entries.getD h 0).toNat < t0.values.length)
    (hinu : ∀ m, m < mat0.length → ∀ j, j < vd - 1 →
      inputs ((m / (pd + 1)) * (vd - 1) + j) = inputs j)
    (hinit : SplatInv pd vd inputs positions sc mat0 t0 0 mat0 t0) :
    ∀ M, M ≤ mat0.length →
      SplatInv pd vd inputs positions sc mat0 t0 M
        (splatSeq pd vd inputs M (mat0, t0)).1 (splatSeq pd vd inputs M (mat0, t0)).2 := by
  intro M
  induction M with
  | zero => intro _; exact hinit
  | succ M ih =>
    intro hM
    have inv := ih (by omega)
    obtain ⟨h, hm0, hslt⟩ := hrows M (by omega)
    have hstep := splatInv_step pd vd inputs positions sc mat0 t0 M
      (splatSeq pd vd inputs M (mat0, t0)).1 (splatSeq pd vd inputs M (mat0, t0)).2
      hvd inv (by omega) h hm0 hslt (hinu M (by omega))
    rw [splatSeq]
    exact hstep

lemma blurVal_prop (vd : ℕ) (inputs : ℕ → ℚ) (t : HashTable) (off : ℤ)
    (hprop : propVals vd inputs t.values) (j : ℕ) (hj : j < vd - 1) :
    (blurVal vd t off).getD j 0 = inputs j * (blurVal vd t off).getD (vd - 1) 0 := by
  rw [blurVal]
  split_ifs with h0
  · exact hprop off.toNat j hj
  · rw [getD_replicate_self, getD_replicate_self, mul_zero]

lemma blurVal_mass (vd : ℕ) (inputs : ℕ → ℚ) (t : HashTable) (off : ℤ)
    (hmass : ∀ s, 0 ≤ massAt vd t.values s) :
    0 ≤ (blurVal vd t off).getD (vd - 1) 0 := by
  rw [blurVal]
  split_ifs with h0
  · have hm := hmass off.toNat
    simp only [massAt] at hm
    exact hm
  · rw [getD_replicate_self]

lemma blurSlot_total (pd vd : ℕ) (color : ℕ) (t : HashTable) (idx : ℕ)
    (hlen : t.entries.length = 2 * t.capacity) (hcnt : 0 < t.entries.count (-1))
    (hcap : 0 < t.capacity) :
    ∃ offNp offNm : ℤ,
      blurSlot pd vd color t idx = some ((List.range vd).map (fun i =>
        (0.25 : ℚ) * (blurVal vd t offNp).getD i 0
          + (0.5 : ℚ) * (t.values.getD idx []).getD i 0
          + (0.25 : ℚ) * (blurVal vd t offNm).getD i 0)) := by
  obtain ⟨offNp, hNp⟩ := Option.isSome_iff_exists.mp
    (retrieveT_total t (npKey pd (t.keys.getD idx []) color) hlen hcnt hcap)
  obtain ⟨offNm, hNm⟩ := Option.isSome_iff_exists.mp
    (retrieveT_total t (nmKey pd (t.keys.getD idx []) color) hlen hcnt hcap)
  refine ⟨offNp, offNm, ?_⟩
  simp only [blurSlot, hNp, hNm]

lemma blurCells_inv (pd vd : ℕ) (inputs : ℕ → ℚ) (mat : List MatEntry) (color : ℕ)
    (t : HashTable)
    (hvd : 1 ≤ vd)
    (hlen : t.entries.length = 2 * t.capacity) (hcnt : 0 < t.entries.count (-1))
    (hcap : 0 < t.capacity)
    (hprop : propVals vd inputs t.values)
    (hmass : ∀ s, 0 ≤ massAt vd t.values s) :
    ∀ N out, N ≤ out.length →
      (∀ l ∈ out, l.length = vd) →
      propVals vd inputs out →
      (∀ s, 0 ≤ massAt vd out s) →
      ∃ out', blurCells pd vd mat color t N out = some out' ∧
        out'.length = out.length ∧
        (∀ l ∈ out', l.length = vd) ∧
        propVals vd inputs out' ∧
        (∀ s, 0 ≤ massAt vd out' s) ∧
        (∀ i, i < N → validCell mat i →
          (1 / 2 : ℚ) * massAt vd t.values i ≤ massAt vd out' i) := by
  intro N
  induction N with
  | zero =>
    intro out _ hovd hoprop homass
    exact ⟨out, rfl, rfl, hovd, hoprop, homass, by intro i hi; omega⟩
  | succ N ih =>
    intro out hNlen hovd hoprop homass
    obtain ⟨out1, hcells, holen, hovd1, hoprop1, homass1, hbnd1⟩ :=
      ih out (by omega) hovd hoprop homass
    by_cases hvld : (mat.getD N ⟨-1, 0⟩).index = (N : ℤ)
    · obtain ⟨offNp, offNm, hslot⟩ := blurSlot_total pd vd color t N hlen hcnt hcap
      refine ⟨out1.set N ((List.range vd).map (fun i =>
        (0.25 : ℚ) * (blurVal vd t offNp).getD i 0
          + (0.5 : ℚ) * (t.values.getD N []).getD i 0
          + (0.25 : ℚ) * (blurVal vd t offNm).getD i 0)), ?_, ?_, ?_, ?_, ?_, ?_⟩
      · rw [blurCells, hcells]
        simp only [if_pos hvld, hslot]
      · rw [List.length_set]
        exact holen
      · intro l hl
        rcases List.mem_or_eq_of_mem_set hl with hold | hnew
        · exact hovd1 l hold
        · rw [hnew]
          simp
      · simp only [propVals]
        intro s j hj
        by_cases hs : s = N
        · rw [hs]
          rw [getD_set_self _ _ _ _ (by omega),
            getD_range_map _ _ _ _ (by omega),
            getD_range_map _ _ _ _ (by omega),
            blurVal_prop vd inputs t offNp hprop j hj,
            blurVal_prop vd inputs t offNm hprop j hj,
            hprop N j hj]
          ring
        · rw [getD_set_other _ _ _ _ _ (Ne.symm hs)]
          exact hoprop1 s j hj
      · intro s
        simp only [massAt]
        by_cases hs : s = N
        · rw [hs]
          rw [getD_set_self _ _ _ _ (by omega),
            getD_range_map _ _ _ _ (by omega)]
          have h1 := blurVal_mass vd inputs t offNp hmass
          have h2 := blurVal_mass vd inputs t offNm hmass
          have h3 := hmass N
          simp only [massAt] at h3
          linarith
        · rw [getD_set_other _ _ _ _ _ (Ne.symm hs)]
          have := homass1 s
          simp only [massAt] at this
          exact this
      · intro i hi hvc
        simp only [massAt]
        by_cases hs : i = N
        · rw [hs]
          rw [getD_set_self _ _ _ _ (by omega),
            getD_range_map _ _ _ _ (by omega)]
          have h1 := blurVal_mass vd inputs t offNp hmass
          have h2 := blurVal_mass vd inputs t offNm hmass
          linarith
        · rw [getD_set_other _ _ _ _ _ (Ne.symm hs)]
          have := hbnd1 i (by omega) hvc
          simp only [massAt] at this
          exact this
    · refine ⟨out1, ?_, holen, hovd1, hoprop1, homass1, ?_⟩
      · rw [blurCells, hcells]
        simp only [if_neg hvld]
      · intro i hi hvc
        rcases Nat.lt_or_ge i N with hiN | hiN
        · exact hbnd1 i hiN hvc
        · exfalso
          have : i = N := by omega
          rw [validCell, this] at hvc
          exact hvld hvc

lemma blurRound_inv (pd vd : ℕ) (inputs : ℕ → ℚ) (mat : List MatEntry) (color : ℕ)
    (t0 t : HashTable) (aux : List (List ℚ))
    (hvd : 1 ≤ vd)
    (hlen0 : t0.entries.length = 2 * t0.capacity) (hcnt0 : 0 < t0.entries.count (-1))
    (hcap0 : 0 < t0.capacity)
    (hinv : BlurInv vd inputs t0 t aux) :
    ∃ t' aux', blurRound pd vd mat color t aux = some (t', aux') ∧
      BlurInv vd inputs t0 t' aux' ∧
      ∀ i, i < t0.capacity → validCell mat i →
        (1 / 2 : ℚ) * massAt vd t.values i ≤ massAt vd t'.values i := by
  have hlen : t.entries.length = 2 * t.capacity := by
    rw [hinv.hent, hinv.hcap]; exact hlen0
  have hcnt : 0 < t.entries.count (-1) := by rw [hinv.hent]; exact hcnt0
  have hcap : 0 < t.capacity := by rw [hinv.hcap]; exact hcap0
  obtain ⟨out', hcells, holen, hovd, hoprop, homass, hbnd⟩ :=
    blurCells_inv pd vd inputs mat color t hvd hlen hcnt hcap hinv.hprop hinv.hmass
      t.capacity aux (by rw [hinv.halen, hinv.hcap]) hinv.havd hinv.haprop hinv.hamass
  refine ⟨valsUpd t out', t.values, ?_, ?_, ?_⟩
  · rw [blurRound]
    simp only [hcells, valsUpd]
  · constructor
    · exact hinv.hcap
    · exact hinv.hent
    · exact hinv.hkeys
    · dsimp only [valsUpd]
      rw [holen, hinv.halen]
    · exact hinv.hvlen
    · dsimp only [valsUpd]
      exact hovd
    · exact hinv.hvd
    · dsimp only [valsUpd]
      exact hoprop
    · exact hinv.hprop
    · dsimp only [valsUpd]
      exact homass
    · exact hinv.hmass
  · intro i hi hvc
    have := hbnd i (by rw [hinv.hcap]; exact hi) hvc
    exact this

lemma blurColors_inv (pd vd : ℕ) (inputs : ℕ → ℚ) (mat : List MatEntry) (t0 : HashTable)
    (hvd : 1 ≤ vd)
    (hlen0 : t0.entries.length = 2 * t0.capacity) (hcnt0 : 0 < t0.entries.count (-1))
    (hcap0 : 0 < t0.capacity) :
    ∀ L : List ℕ, ∀ t aux, BlurInv vd inputs t0 t aux →
      ∃ t' aux', blurColors pd vd mat L t aux = some (t', aux') ∧
        BlurInv vd inputs t0 t' aux' ∧
        ∀ i, i < t0.capacity → validCell mat i →
          (1 / 2 : ℚ) ^ L.length * massAt vd t.values i ≤ massAt vd t'.values i := by
  intro L
  induction L with
  | nil =>
    intro t aux hinv
    refine ⟨t, aux, rfl, hinv, ?_⟩
    intro i _ _
    simp
  | cons c rest ih =>
    intro t aux hinv
    obtain ⟨t1, aux1, hrnd, hinv1, hbnd1⟩ :=
      blurRound_inv pd vd inputs mat c t0 t aux hvd hlen0 hcnt0 hcap0 hinv
    obtain ⟨t', aux', hrest, hinv', hbnd'⟩ := ih t1 aux1 hinv1
    refine ⟨t', aux', ?_, hinv', ?_⟩
    · rw [blurColors, hrnd]
      exact hrest
    · intro i hi hvc
      have h1 := hbnd1 i hi hvc
      have h2 := hbnd' i hi hvc
      have hp : (0 : ℚ) ≤ (1 / 2) ^ rest.length := by positivity
      have hlc : ((c :: rest).length) = rest.length + 1 := rfl
      rw [hlc, pow_succ]
      calc (1 / 2 : ℚ) ^ rest.length * (1 / 2) * massAt vd t.values i
          = (1 / 2 : ℚ) ^ rest.length * ((1 / 2) * massAt vd t.values i) := by ring
        _ ≤ (1 / 2 : ℚ) ^ rest.length * massAt vd t1.values i :=
            mul_le_mul_of_nonneg_left h1 hp
        _ ≤ massAt vd t'.values i := h2

lemma getD_getD_zero (c0 vd s j : ℕ) :
    ((List.replicate c0 (List.replicate vd (0 : ℚ))).getD s []).getD j 0 = 0 := by
  rcases Nat.lt_or_ge s c0 with hs | hs
  · rw [getD_replicate _ _ _ _ hs, getD_replicate_self]
  · have hnil : (List.replicate c0 (List.replicate vd (0 : ℚ))).getD s [] = [] :=
      List.getD_eq_default _ _ (by simpa using hs)
    rw [hnil]
    rfl

/-- Under exact arithmetic, a slice whose accumulators are proportional
to the constant input with positive sampled mass reproduces the input. -/
lemma slice_output (pd vd : ℕ) (inputs positions sc : ℕ → ℚ)
    (t4 : HashTable) (mat2 : List MatEntry) (idx : ℕ) (K : ℚ)
    (hK : 0 < K)
    (hprop : propVals vd inputs t4.values)
    (hmassnn : ∀ s, 0 ≤ massAt vd t4.values s)
    (hrows : ∀ i, i < pd + 1 → ∃ s : ℕ,
      mat2.getD (idx * (pd + 1) + i) ⟨-1, 0⟩ =
        ⟨((s : ℕ) : ℤ), rowW pd positions sc (idx * (pd + 1) + i)⟩)
    (hbig : ∃ i, i < pd + 1 ∧ ∃ s : ℕ,
      mat2.getD (idx * (pd + 1) + i) ⟨-1, 0⟩ =
        ⟨((s : ℕ) : ℤ), rowW pd positions sc (idx * (pd + 1) + i)⟩ ∧
      K ≤ rowW pd positions sc (idx * (pd + 1) + i) ∧
      K ≤ massAt vd t4.values s) :
    sliceSample pd vd t4 mat2 idx =
      some ((List.range (vd - 1)).map fun j => inputs j) := by
  have hterm_nn : ∀ i ∈ Finset.range (pd + 1),
      0 ≤ (mat2.getD (idx * (pd + 1) + i) ⟨-1, 0⟩).weight *
        (t4.values.getD (mat2.getD (idx * (pd + 1) + i) ⟨-1, 0⟩).index.toNat []).getD
          (vd - 1) 0 := by
    intro i hi
    obtain ⟨s, hs⟩ := hrows i (Finset.mem_range.mp hi)
    rw [hs]
    simp only [Int.toNat_natCast]
    have hm := hmassnn s
    simp only [massAt] at hm
    exact mul_nonneg (rowW_nonneg _ _ _ _) hm
  have hW : 0 < sliceW pd vd t4 mat2 idx := by
    obtain ⟨i0, hi0, s0, hs0, hKw, hKm⟩ := hbig
    have h1 : K * K ≤ (mat2.getD (idx * (pd + 1) + i0) ⟨-1, 0⟩).weight *
        (t4.values.getD (mat2.getD (idx * (pd + 1) + i0) ⟨-1, 0⟩).index.toNat []).getD
          (vd - 1) 0 := by
      rw [hs0]
      simp only [Int.toNat_natCast]
      simp only [massAt] at hKm
      exact mul_le_mul hKw hKm hK.le (rowW_nonneg _ _ _ _)
    have h2 := Finset.sum_le_sum_of_subset_of_nonneg
      (Finset.singleton_subset_iff.mpr (Finset.mem_range.mpr hi0))
      (fun i hi _ => hterm_nn i hi)
    rw [Finset.sum_singleton] at h2
    have hKK : 0 < K * K := mul_pos hK hK
    rw [sliceW]
    linarith
  have hVJ : ∀ j, j < vd - 1 →
      sliceValJ pd vd t4 mat2 idx j = inputs j * sliceW pd vd t4 mat2 idx := by
    intro j hj
    rw [sliceValJ, sliceW, Finset.mul_sum]
    apply Finset.sum_congr rfl
    intro i hi
    obtain ⟨s, hs⟩ := hrows i (Finset.mem_range.mp hi)
    rw [hs]
    simp only [Int.toNat_natCast]
    rw [hprop s j hj]
    ring
  rw [sliceSample, recipQ, if_neg (ne_of_gt hW)]
  simp only [Option.map_some']
  congr 1
  apply List.map_congr_left
  intro j hj
  rw [List.mem_range] at hj
  rw [hVJ j hj, mul_assoc, mul_inv_cancel₀ (ne_of_gt hW), mul_one]

lemma sliceSeq_const (pd vd n : ℕ) (inputs : ℕ → ℚ) (t4 : HashTable)
    (mat2 : List MatEntry)
    (hsample : ∀ idx, idx < n → sliceSample pd vd t4 mat2 idx =
      some ((List.range (vd - 1)).map fun j => inputs j)) :
    ∀ N, N ≤ n → sliceSeq pd vd t4 mat2 N =
      some (List.flatten (List.replicate N ((List.range (vd - 1)).map fun j => inputs j))) := by
  intro N
  induction N with
  | zero => intro _; rfl
  | succ N ih =>
    intro hN
    rw [sliceSeq, ih (by omega), hsample N (by omega)]
    simp only
    congr 1
    rw [List.replicate_succ', List.flatten_append]
    simp

/-! ## Claim theorems -/

/-- C1 (counterexample): `insert` returns the probe index into the
`entries` array (here `0`), while an immediate `retrieve` with the same
key returns the contents of that entry — the owning slot (here `2`).
They are different numbers, so retrieve does not return "the same probe
index that insert returned". -/
theorem claim_C1_counterexample :
    insertT t0C1 [0] 2 = some (0, claimUpd t0C1 0 2 [0]) ∧
    retrieveT (claimUpd t0C1 0 2 [0]) [0] = some 2 ∧
    ¬ retrieveT (claimUpd t0C1 0 2 [0]) [0] = some (((0 : ℕ) : ℤ)) := by
  decide

/-- C1 (amended): in a race-free sequential execution, for every key
inserted via `insert`, an immediate `retrieve` with the identical key
succeeds and returns the slot index stored at the probe index that
`insert` returned — the owning slot of that key — rather than the probe
index itself. -/
theorem claim_C1_amended :
    ∀ (t : HashTable) (key : List ℤ) (slot : ℕ) (h' : ℕ) (t' : HashTable),
      insertT t key slot = some (h', t') →
      (∀ x ∈ t.entries, -1 ≤ x) →
      ((slot : ℤ)) ∉ t.entries →
      slot < t.keys.length →
      t.entries.length = 2 * t.capacity →
      0 < t.capacity →
      retrieveT t' key = some (t'.entries.getD h' 0) ∧
      0 ≤ t'.entries.getD h' 0 ∧ keyAt t' (t'.entries.getD h' 0) = key := by
  intro t key slot h' t' hins hwf hfresh hslot hlen hcap
  rw [insertT] at hins
  have hh0 : modHash t.capacity (hashK key) < 2 * t.capacity := Nat.mod_lt _ (by omega)
  have hcapEq : t'.capacity = t.capacity := insertAux_capacity _ _ _ _ _ _ _ hins
  have hret := retrieveAux_after_insert key slot _ t _ h' t' hins hwf hfresh hslot hlen hh0
  have hidx : h' < 2 * t.capacity := insertAux_idx_lt _ _ _ _ _ _ _ hins hh0
  refine ⟨?_, ?_⟩
  · rw [retrieveT, hcapEq]
    exact hret
  · rcases insertAux_spec key slot _ t _ h' t' hins with ⟨heq, hne1, _hne2, hkey⟩ | ⟨_hemp, heq⟩
    · rw [heq]
      have hmem : t.entries.getD h' 0 ∈ t.entries := getD_mem _ _ _ (by omega)
      have := hwf _ hmem
      exact ⟨by omega, hkey⟩
    · rw [heq]
      have hget : (claimUpd t h' slot key).entries.getD h' 0 = ((slot : ℤ)) := by
        rw [claimUpd]
        exact getD_set_self _ _ _ _ (by rw [hlen]; omega)
      rw [hget]
      refine ⟨Int.natCast_nonneg slot, ?_⟩
      rw [keyAt, claimUpd]
      simp only [Int.toNat_natCast]
      exact getD_set_self _ _ _ _ hslot

/-- C1 (witness): a concrete insert of key `[0]` into an empty table and
the immediate retrieve of the same key. -/
theorem claim_C1_witness :
    retrieveT (claimUpd t0C1 0 1 [0]) [0] =
      some ((claimUpd t0C1 0 1 [0]).entries.getD 0 0) ∧
    0 ≤ (claimUpd t0C1 0 1 [0]).entries.getD 0 0 :=
  ⟨(claim_C1_amended t0C1 [0] 1 0 (claimUpd t0C1 0 1 [0]) (by decide) (by decide) (by decide)
      (by decide) (by decide) (by decide)).1,
    (claim_C1_amended t0C1 [0] 1 0 (claimUpd t0C1 0 1 [0]) (by decide) (by decide) (by decide)
      (by decide) (by decide) (by decide)).2.1⟩

/-- C2: in each blur round with color `c`, the engine computes the two
neighbor keys along axis `c`, retrieves their accumulators with a missing
neighbor read as the zero vector, writes `0.25*next + 0.5*self +
0.25*prev` for every occupied vertex into a separate output buffer, and
swaps the current/next buffers at the end of the round — exactly as the
specification describes the round. -/
theorem claim_C2_blur_round :
    ∀ (pd vd : ℕ) (mat : List MatEntry) (color : ℕ) (t : HashTable) (aux : List (List ℚ)),
      blurRound pd vd mat color t aux = blurRoundSpec pd vd mat color t aux :=
  blurRound_eq_spec

/-- C3: for every position vector (and every scale vector), the `pd+1`
barycentric weights produced by `createLattice` sum to exactly 1 in exact
arithmetic. -/
theorem claim_C3_bary_sum_one :
    ∀ (pd : ℕ) (pos sc : ℕ → ℚ),
      ∑ r in Finset.range (pd + 1), bary pd (elev pos sc pd) r = 1 :=
  fun pd pos sc => bary_sum pd _ (elev_sum_eq_zero pos sc pd)

/-- C4: for every number of samples, every `reverse` setting, and every
constant input field (all samples share the same value vector and the
same position vector), the sequential filter pipeline (create → clean →
splat → pd+1 blur rounds → slice) reproduces the input values exactly
under exact arithmetic. -/
theorem claim_C4_constant_preserving (pd vd n : ℕ) (inputs positions sc : ℕ → ℚ)
    (reverse : Bool) (hn : 0 < n) (hvd : 1 ≤ vd)
    (hposu : ∀ σ, σ < n → ∀ i, i < pd → positions (σ * pd + i) = positions i)
    (hinu : ∀ σ, σ < n → ∀ j, j < vd - 1 → inputs (σ * (vd - 1) + j) = inputs j) :
    filterSeq pd vd n inputs positions sc reverse =
      some (List.flatten (List.replicate n
        ((List.range (vd - 1)).map fun j => inputs j))) := by
  have hc0 : 0 < n * (pd + 1) := Nat.mul_pos hn (by omega)
  obtain ⟨mat, t1, hcr, inv⟩ := createRows_inv pd vd n positions sc (n * (pd + 1)) le_rfl
  have hvl1 : t1.values.length = n * (pd + 1) := by
    rw [inv.hvals, List.length_replicate]
  have hclean : cleanSeq (2 * (n * (pd + 1))) t1 = some t1 :=
    cleanSeq_noop t1 (2 * (n * (pd + 1))) inv.hlen.symm.le inv.hclean
  have hsplat0 : SplatInv pd vd inputs positions sc mat t1 0 mat t1 :=
    splatInv_zero pd vd inputs positions sc mat t1 (n * (pd + 1)) inv.hvals
  have hrows : ∀ m, m < mat.length → ∃ h : ℕ,
      mat.getD m ⟨-1, 0⟩ = ⟨((h : ℕ) : ℤ), rowW pd positions sc m⟩ ∧
      (t1.entries.getD h 0).toNat < t1.values.length := by
    intro m hm
    rw [inv.hmlen] at hm
    obtain ⟨h, hhlt, hmat, hposE, _⟩ := inv.hrow m hm
    refine ⟨h, hmat, ?_⟩
    have hwfE := inv.hwf (t1.entries.getD h 0)
      (getD_mem t1.entries h 0 (by rw [inv.hlen]; exact hhlt))
    rw [hvl1]
    omega
  have hinu' : ∀ m, m < mat.length → ∀ j, j < vd - 1 →
      inputs ((m / (pd + 1)) * (vd - 1) + j) = inputs j := by
    intro m hm j hj
    rw [inv.hmlen] at hm
    exact hinu (m / (pd + 1)) (Nat.div_lt_of_lt_mul (by rw [Nat.mul_comm]; exact hm)) j hj
  have hsp := splatSeq_inv_fold pd vd inputs positions sc mat t1 hvd hrows hinu' hsplat0
    (n * (pd + 1)) inv.hmlen.ge
  have hbinit : BlurInv vd inputs t1
      (splatSeq pd vd inputs (n * (pd + 1)) (mat, t1)).2
      (initAux vd n (n * (pd + 1))) := by
    constructor
    · exact hsp.hcap
    · exact hsp.hent
    · exact hsp.hkeys
    · rw [hsp.hvlen, hvl1, inv.hcap]
    · rw [initAux, List.length_replicate, inv.hcap]
    · exact hsp.hvd
    · intro l hl
      rw [initAux] at hl
      rw [List.eq_of_mem_replicate hl]
      exact List.length_replicate _ _
    · exact hsp.hprop
    · simp only [propVals, initAux]
      intro s j _
      rw [getD_getD_zero, getD_getD_zero, mul_zero]
    · exact hsp.hmass0
    · intro s
      simp only [massAt, initAux]
      rw [getD_getD_zero]
  have hlen0 : t1.entries.length = 2 * t1.capacity := by rw [inv.hcap]; exact inv.hlen
  have hcnt0 : 0 < t1.entries.count (-1) := by
    have := inv.hcnt
    omega
  have hcap0 : 0 < t1.capacity := by rw [inv.hcap]; exact hc0
  obtain ⟨t4, aux4, hblur, hbinv, hbbnd⟩ := blurColors_inv pd vd inputs
    (splatSeq pd vd inputs (n * (pd + 1)) (mat, t1)).1 t1 hvd hlen0 hcnt0 hcap0
    (colorSeq pd reverse)
    (splatSeq pd vd inputs (n * (pd + 1)) (mat, t1)).2
    (initAux vd n (n * (pd + 1))) hbinit
  have hclen : (colorSeq pd reverse).length = pd + 1 := by
    rw [colorSeq]
    split_ifs <;> simp
  have hsample : ∀ idx, idx < n →
      sliceSample pd vd t4 (splatSeq pd vd inputs (n * (pd + 1)) (mat, t1)).1 idx =
        some ((List.range (vd - 1)).map fun j => inputs j) := by
    intro idx hidx
    have hmlt : ∀ i, i < pd + 1 → idx * (pd + 1) + i < n * (pd + 1) := by
      intro i hi
      have h2 : (idx + 1) * (pd + 1) ≤ n * (pd + 1) := Nat.mul_le_mul_right _ hidx
      have h3 : idx * (pd + 1) + i < (idx + 1) * (pd + 1) := by
        rw [Nat.add_mul, Nat.one_mul]
        omega
      omega
    apply slice_output pd vd inputs positions sc t4 _ idx
      ((1 / 2 : ℚ) ^ (pd + 1) * (1 / ((pd : ℚ) + 1)))
    · positivity
    · exact hbinv.hprop
    · exact hbinv.hmass
    · intro i hi
      obtain ⟨hfst, _⟩ := hsp.hdone (idx * (pd + 1) + i) (hmlt i hi)
      obtain ⟨h, hhlt, hmat, hposE, _⟩ := inv.hrow (idx * (pd + 1) + i)
        (by rw [← inv.hmlen] at hmlt ⊢; exact hmlt i hi)
      refine ⟨(t1.entries.getD h 0).toNat, ?_⟩
      rw [hfst, hmat]
      simp only [Int.toNat_natCast]
      rw [Int.toNat_of_nonneg hposE]
    · obtain ⟨r, hr, hbr⟩ := exists_bary_ge pd (elev (posOf positions pd idx) sc pd)
        (elev_sum_eq_zero _ _ _)
      obtain ⟨hfst, hsnd⟩ := hsp.hdone (idx * (pd + 1) + r) (hmlt r hr)
      obtain ⟨h, hhlt, hmat, hposE, _⟩ := inv.hrow (idx * (pd + 1) + r) (hmlt r hr)
      have hmemE : t1.entries.getD h 0 ∈ t1.entries :=
        getD_mem _ _ _ (by rw [inv.hlen]; exact hhlt)
      have hwfE := inv.hwf _ hmemE
      have hslt : (t1.entries.getD h 0).toNat < n * (pd + 1) := by omega
      have hsZ : (((t1.entries.getD h 0).toNat : ℕ) : ℤ) = t1.entries.getD h 0 :=
        Int.toNat_of_nonneg hposE
      refine ⟨r, hr, (t1.entries.getD h 0).toNat, ?_, ?_, ?_⟩
      · rw [hfst, hmat]
        simp only [Int.toNat_natCast]
        rw [hsZ]
      · rw [rowW_decomp pd positions sc idx r hr]
        have hle1 : (1 / 2 : ℚ) ^ (pd + 1) ≤ 1 := pow_le_one₀ (by norm_num) (by norm_num)
        have hp1 : (0 : ℚ) < 1 / ((pd : ℚ) + 1) := by positivity
        calc (1 / 2 : ℚ) ^ (pd + 1) * (1 / ((pd : ℚ) + 1))
            ≤ 1 * (1 / ((pd : ℚ) + 1)) := mul_le_mul_of_nonneg_right hle1 hp1.le
          _ = 1 / ((pd : ℚ) + 1) := one_mul _
          _ ≤ bary pd (elev (posOf positions pd idx) sc pd) r := hbr
      · have hmem2 : (((t1.entries.getD h 0).toNat : ℕ) : ℤ) ∈ t1.entries := by
          rw [hsZ]
          exact hmemE
        have hown := inv.howner (t1.entries.getD h 0).toNat hslt hmem2
        obtain ⟨hfst2, _⟩ := hsp.hdone (t1.entries.getD h 0).toNat hslt
        have hvalid : validCell (splatSeq pd vd inputs (n * (pd + 1)) (mat, t1)).1
            (t1.entries.getD h 0).toNat := by
          rw [validCell, hfst2]
          exact hown
        have hb := hbbnd (t1.entries.getD h 0).toNat (by rw [inv.hcap]; exact hslt) hvalid
        rw [hclen] at hb
        rw [hmat] at hsnd
        simp only [Int.toNat_natCast] at hsnd
        rw [rowW_decomp pd positions sc idx r hr] at hsnd
        have hpow : (0 : ℚ) ≤ (1 / 2 : ℚ) ^ (pd + 1) := by positivity
        have hchain : 1 / ((pd : ℚ) + 1) ≤
            massAt vd (splatSeq pd vd inputs (n * (pd + 1)) (mat, t1)).2.values
              (t1.entries.getD h 0).toNat := le_trans hbr hsnd
        calc (1 / 2 : ℚ) ^ (pd + 1) * (1 / ((pd : ℚ) + 1))
            ≤ (1 / 2 : ℚ) ^ (pd + 1) *
              massAt vd (splatSeq pd vd inputs (n * (pd + 1)) (mat, t1)).2.values
                (t1.entries.getD h 0).toNat := mul_le_mul_of_nonneg_left hchain hpow
          _ ≤ massAt vd t4.values (t1.entries.getD h 0).toNat := hb
  have hslice := sliceSeq_const pd vd n inputs t4
    (splatSeq pd vd inputs (n * (pd + 1)) (mat, t1)).1 hsample n le_rfl
  simp only [filterSeq, hcr, hclean, hblur, hslice]

/-- Witness for C4 at `pd = 1`, `vd = 2`, one sample, constant unit
input at the origin: the filtered output equals the input. -/
theorem claim_C4_witness :
    filterSeq 1 2 1 (fun _ => 1) (fun _ => 0) (fun _ => 1) false = some [1] := by
  have h := claim_C4_constant_preserving 1 2 1 (fun _ => 1) (fun _ => 0) (fun _ => 1)
    false (by norm_num) (by norm_num) (fun _ _ _ _ => rfl) (fun _ _ _ _ => rfl)
  simpa using h

/-- C5 (counterexample): at `pd = 1` the elevated coordinate `1` is
exactly halfway between the multiples `0` and `2`; the strict `<`
comparison makes the code choose the LOWER multiple `0`, not the upper
one the claim requires. -/
theorem claim_C5_counterexample : roundMult 2 1 = 0 ∧ roundMult 2 1 ≠ 2 := by
  have hfl : ⌊(1 : ℚ) * (1 / ((2 : ℕ) : ℚ))⌋ = 0 := by
    rw [Int.floor_eq_iff]
    constructor
    · norm_num
    · norm_num
  have hfr : Int.fract ((1 : ℚ) * (1 / ((2 : ℕ) : ℚ))) ≤ 1 / 2 := by
    rw [Int.fract, hfl]
    norm_num
  have h := roundMult_closed 2 (by norm_num) 1
  rw [if_pos hfr, hfl] at h
  rw [h]
  norm_num

/-- C5 (amended): each elevated coordinate is rounded to the nearest
multiple of `pd+1`, with ties broken toward the LOWER multiple (`down`,
since `up - v < v - down` is a strict `<`); equivalently the result is
`(pd+1) * ceil(v/(pd+1) - 1/2)`.  The chosen remainders are summed and
the sum is divided by `pd+1` with integer division — a division that is
exact, every remainder being a multiple of `pd+1`. -/
theorem claim_C5_amended :
    (∀ s : ℕ, 0 < s → ∀ e : ℚ,
      ((s : ℤ) ∣ roundMult s e) ∧
      (∀ k : ℤ, |e - (roundMult s e : ℚ)| ≤ |e - ((k * (s : ℤ) : ℤ) : ℚ)|) ∧
      roundMult s e = ⌈e * (1 / (s : ℚ)) - 1 / 2⌉ * (s : ℤ)) ∧
    (∀ (pd : ℕ) (f : ℕ → ℚ), ((pd : ℤ) + 1) * sumV pd f = sumRem pd f) := by
  constructor
  · intro s hs e
    exact ⟨roundMult_dvd s hs e, fun k => roundMult_nearest s hs e k,
      roundMult_tiesDown s hs e⟩
  · intro pd f
    exact (sumRem_eq_mul_sumV pd f).symm

/-- C5 (witness): the rounding characterization evaluated at `s = 2`,
`e = 7/2`. -/
theorem claim_C5_witness :
    (0 : ℕ) < 2 ∧ (((2 : ℕ) : ℤ) ∣ roundMult 2 (7 / 2)) ∧
      roundMult 2 (7 / 2) = ⌈(7 / 2 : ℚ) * (1 / ((2 : ℕ) : ℚ)) - 1 / 2⌉ * ((2 : ℕ) : ℤ) :=
  ⟨by norm_num, (claim_C5_amended.1 2 (by norm_num) (7 / 2)).1,
    (claim_C5_amended.1 2 (by norm_num) (7 / 2)).2.2⟩

/-- C6 (counterexample): at `pd = 1` with unit position and scale, the
code's `elevated[pd] = elevated[1]` is `-1`, whereas the sum of the
scaled coordinates is `1`: `elevated[pd]` does not equal the sum (it is
`elevated[0]` that does). -/
theorem claim_C6_counterexample :
    elev (fun _ => 1) (fun _ => 1) 1 1 = -1 ∧
    (∑ j in Finset.range 1, (fun _ => (1 : ℚ)) j * (fun _ => (1 : ℚ)) j) = 1 ∧
    ((-1 : ℚ) ≠ (1 : ℚ)) := by
  refine ⟨?_, ?_, by norm_num⟩
  · rw [elev]
    norm_num [smD, cf]
  · simp

/-- C6 (amended): the elevation maps the `pd` scaled inputs to `pd+1`
coordinates with `elevated[0]` (not `elevated[pd]`) equal to the sum of
the scaled coordinates, and for descending `i = pd..1`,
`elevated[i] = running_sum - i*scaled[i-1]`, the running sum holding the
scaled coordinates of the already-processed indices `j > i`. -/
theorem claim_C6_amended :
    ∀ (pos sc : ℕ → ℚ) (pd : ℕ),
      elev pos sc pd 0 = (∑ j in Finset.range pd, pos j * sc j) ∧
      ∀ i, 1 ≤ i → i ≤ pd →
        elev pos sc pd i =
          (∑ j in Finset.Ico i pd, pos j * sc j) - (i : ℚ) * (pos (i - 1) * sc (i - 1)) := by
  intro pos sc pd
  exact ⟨elev_zero pos sc pd, fun i h1 h2 => elev_pos pos sc pd i h1 h2⟩

/-- C6 (witness): the elevation closed form evaluated at `pd = 2`,
`i = 1`, with unit position and scale. -/
theorem claim_C6_witness :
    elev (fun _ => 1) (fun _ => 1) 2 0 =
      (∑ j in Finset.range 2, (fun _ => (1 : ℚ)) j * (fun _ => (1 : ℚ)) j) ∧
    elev (fun _ => 1) (fun _ => 1) 2 1 =
      (∑ j in Finset.Ico 1 2, (fun _ => (1 : ℚ)) j * (fun _ => (1 : ℚ)) j) -
        (1 : ℚ) * ((fun _ => (1 : ℚ)) 0 * (fun _ => (1 : ℚ)) 0) :=
  ⟨(claim_C6_amended (fun _ => 1) (fun _ => 1) 2).1, by
    have h := (claim_C6_amended (fun _ => 1) (fun _ => 1) 2).2 1 (by norm_num) (by norm_num)
    simpa using h⟩

/-- C7 (counterexample): the code hashes by `k += key[i]; k = k*2531011`
(add, then multiply), not `k = k*2531011 + key[i]`: on the key `[1]` the
code's hash is `2531011`, the claim's polynomial gives `1`. -/
theorem claim_C7_counterexample :
    hashK [1] = 2531011 ∧ hashSpecK [1] = 1 ∧ hashK [1] ≠ hashSpecK [1] := by
  decide

/-- C7 (amended): the hash equals the wrapped polynomial
`sum_i key[i] * 2531011^(pd-i)` (exponent `pd - i`: the multiplication
happens after each addition), and the probe start index is that hash
reduced modulo `2*capacity`. -/
theorem claim_C7_amended :
    (∀ key : List ℤ, hashK key =
      ((∑ i in Finset.range key.length,
        key.getD i 0 * 2531011 ^ (key.length - i)) % 2 ^ 32).toNat) ∧
    (∀ c n : ℕ, modHash c n = n % (2 * c)) ∧
    (∀ (t : HashTable) (key : List ℤ),
      retrieveT t key = retrieveAux t key (2 * t.capacity) (modHash t.capacity (hashK key))) ∧
    (∀ (t : HashTable) (key : List ℤ) (slot : ℕ),
      insertT t key slot =
        insertAux key slot (2 * t.capacity) t (modHash t.capacity (hashK key))) :=
  ⟨hashK_closed, fun _ _ => rfl, fun _ _ => rfl, fun _ _ _ => rfl⟩

/-- C8 (code bug): at `num_samples = 65535*256` the constructor's
capacity check fires — but the code only prints the warning and runs on
into the allocations (its own comment says "this should crash the
program"); nothing refuses to proceed and nothing is surfaced to the
caller. -/
theorem claim_C8_continues_after_warning :
    (latticeCtor 3 (65535 * 256)).warnedOverflow = true ∧
    (latticeCtor 3 (65535 * 256)).aborted = false ∧
    (latticeCtor 3 (65535 * 256)).tableCapacity = 65535 * 256 * 4 := by
  decide

/-- C9 (counterexample): on a saturated table whose stored key differs
from the probed key, both probe loops sweep all `2*capacity` cells
without resolving and without any fatal error — the probe index silently
wraps around (see the amended theorem: the loop never terminates). -/
theorem claim_C9_counterexample :
    retrieveT tFull [7] = none ∧ insertT tFull [7] 0 = none := by
  decide

/-- C9 (amended): the probe loops of `insert` and `retrieve` terminate
within `2*capacity` probes whenever the table still has an empty cell;
when every cell is occupied by a non-matching key, the loop silently
wraps the probe index around and never terminates — no fatal
invariant-violation error exists in the code. -/
theorem claim_C9_amended :
    (∀ (t : HashTable) (key : List ℤ) (slot : ℕ),
      t.entries.length = 2 * t.capacity → 0 < t.entries.count (-1) → 0 < t.capacity →
      (retrieveT t key).isSome ∧ (insertT t key slot).isSome) ∧
    (∀ fuel h, h < 2 → retrieveAux tFull [7] fuel h = none) := by
  constructor
  · intro t key slot hlen hcnt hcap
    exact ⟨retrieveT_total t key hlen hcnt hcap, insertT_total t key slot hlen hcnt hcap⟩
  · intro fuel
    induction fuel with
    | zero => intro h _; rfl
    | succ fuel ih =>
      intro h hh
      interval_cases h
      · rw [retrieveAux, if_neg (by decide), if_neg (by decide)]
        exact ih 1 (by omega)
      · rw [retrieveAux, if_neg (by decide), if_neg (by decide)]
        exact ih 0 (by omega)

/-- C9 (witness): on a concrete capacity-1 table with empty cells, both
probe loops resolve within the `2*capacity` budget. -/
theorem claim_C9_witness :
    (retrieveT tEmpty1 [3]).isSome ∧ (insertT tEmpty1 [3] 0).isSome :=
  claim_C9_amended.1 tEmpty1 [3] 0 (by decide) (by decide) (by decide)

/-- C10: `slice` multiplies the weighted value sums by the reciprocal of
the weighted mass sum with no zero-mass guard; the division-by-zero
branch of the embedded guarded reciprocal is reachable — concretely, on
the zero-initialised accumulator table every sample's mass is zero. -/
theorem claim_C10_slice :
    (∀ (pd vd : ℕ) (t : HashTable) (mat : List MatEntry) (idx : ℕ),
      sliceW pd vd t mat idx ≠ 0 →
      sliceSample pd vd t mat idx =
        some ((List.range (vd - 1)).map
          (fun j => sliceValJ pd vd t mat idx j * (sliceW pd vd t mat idx)⁻¹))) ∧
    sliceW 1 2 tZeroC10 matC10 0 = 0 ∧
    sliceSample 1 2 tZeroC10 matC10 0 = none := by
  have hzero : sliceW 1 2 tZeroC10 matC10 0 = 0 := by
    rw [sliceW, Finset.sum_range_succ, Finset.sum_range_succ, Finset.sum_range_zero]
    norm_num [tZeroC10, matC10, initTable, List.replicate, List.getD]
  refine ⟨?_, hzero, ?_⟩
  · intro pd vd t mat idx h
    rw [sliceSample, recipQ, if_neg h]
    rfl
  · rw [sliceSample, recipQ, if_pos hzero]
    rfl

/-- C10 (witness): on a table whose slot-0 accumulator carries mass 1,
the mass is nonzero and `slice` produces the normalized output. -/
theorem claim_C10_witness :
    sliceSample 1 2 tMassC10 matC10 0 =
      some ((List.range 1).map
        (fun j => sliceValJ 1 2 tMassC10 matC10 0 j * (sliceW 1 2 tMassC10 matC10 0)⁻¹)) :=
  claim_C10_slice.1 1 2 tMassC10 matC10 0 (by
    rw [sliceW, Finset.sum_range_succ, Finset.sum_range_succ, Finset.sum_range_zero]
    norm_num [tMassC10, matC10, List.getD])

end PermLat
